import Mathlib

/-!
# Verification of `fila_atendimento.py`

A shallow embedding of the single-server service-queue simulator:
the `Cliente` record, the priority mapping, the two hand-written sorts
(`merge_sort`, `quick_sort`), the two queue disciplines
(three per-category FIFO deques vs. a priority heap), the event loop
`simular`, and the statistics aggregation.

Modelling conventions:
* Python floats are modelled as exact rationals (`ℚ`); all arithmetic in
  the program is sums, `max` and one division, so `ℚ` captures it exactly.
* The heap is modelled by the `heapq` contract: `heappush` adds an entry,
  `heappop` removes the lexicographically smallest entry (entries carry a
  unique monotonic counter, so the minimum is unique and no comparison
  ever reaches the `Cliente` payload).
* Mutation of `inicio_atendimento` / `termino_atendimento` is modelled by
  returning an `Atendido` record pairing the customer with its timestamps.
* A Python `KeyError` (raised by `filas[cliente.tipo]` for an
  unrecognized category) is modelled by `Except.error (SimErr.keyError tipo)`.
* The loop runs on explicit fuel; `2 * n + 1` is shown sufficient, and
  exhaustion is a distinguished error value never reached on valid input.
* `simular`'s bookkeeping outputs with no effect on the computation are
  omitted: the `mapa` id-lookup dictionary, the `undo_stack` (a copy of
  the served list when `registrar_undo` is set) and the `reorder_rule`
  parameter (its only branch is `pass`); the echoed statistics fields
  keep `estrutura` and `algoritmo_ordenacao`.
-/

set_option linter.unusedVariables false

namespace Fila

/-- `Cliente`: one customer record, as built by `Cliente.__init__`
(`tipo` is stored lower-cased by the constructor; we take it as given). -/
structure Cliente where
  id : Nat
  nome : String
  tipo : String
  tempo_servico : ℚ
  chegada : ℚ
deriving DecidableEq, Repr

/-- A served customer: the customer together with the two timestamps the
engine assigns (`inicio_atendimento`, `termino_atendimento`). -/
structure Atendido where
  cliente : Cliente
  inicio : ℚ
  termino : ℚ
deriving DecidableEq, Repr

/-- `espera()`: wait of a served customer (`inicio - chegada`). -/
def Atendido.espera (a : Atendido) : ℚ := a.inicio - a.cliente.chegada

/-- `str.lower()`, modelled character by character (the categories in play
are ASCII). -/
def lower (s : String) : String := ⟨s.data.map Char.toLower⟩

/-- `PRIORIDADE_TIPO.get(tipo.lower(), 99)`: corporativo 1, preferencial 2,
comum 3, anything else 99. -/
def tipo_prioridade (tipo : String) : Nat :=
  if lower tipo = "corporativo" then 1
  else if lower tipo = "preferencial" then 2
  else if lower tipo = "comum" then 3
  else 99

/-- The merge step of `merge_sort`: take from the left run while its head
key is `≤` the right head key, otherwise take from the right. -/
def merge_runs {α κ : Type _} [LinearOrder κ] (key : α → κ) :
    List α → List α → List α
  | [], ys => ys
  | xs, [] => xs
  | x :: xs, y :: ys =>
      if key x ≤ key y then x :: merge_runs key xs (y :: ys)
      else y :: merge_runs key (x :: xs) ys

/-- `merge_sort(arr, key)` with an explicit recursion-depth bound (`fuel`),
so that the definition is structurally recursive and evaluates in the
kernel. Each recursive call is on a strictly shorter list, so
`fuel = arr.length` (used by `merge_sort`) is never exhausted. -/
def merge_sortF {α κ : Type _} [LinearOrder κ] (key : α → κ) :
    Nat → List α → List α
  | 0, arr => arr
  | fuel + 1, arr =>
    if arr.length ≤ 1 then arr
    else
      let mid := arr.length / 2
      merge_runs key (merge_sortF key fuel (arr.take mid))
        (merge_sortF key fuel (arr.drop mid))

/-- `merge_sort(arr, key)`: split at `len(arr) // 2`, sort both halves,
merge taking from the left on equal keys. -/
def merge_sort {α κ : Type _} [LinearOrder κ] (key : α → κ) (arr : List α) :
    List α :=
  merge_sortF key arr.length arr

/-- `quick_sort(arr, key)` with an explicit recursion-depth bound, for the
same reason as `merge_sortF`: pivot is the key of the middle element;
partition by `<`, `==`, `>` against the pivot and recurse on the strict
parts (each misses the pivot element, hence is strictly shorter). -/
def quick_sortF {α κ : Type _} [LinearOrder κ] (key : α → κ) :
    Nat → List α → List α
  | 0, arr => arr
  | fuel + 1, arr =>
    if h : arr.length ≤ 1 then arr
    else
      let pivot := key (arr.get ⟨arr.length / 2, by omega⟩)
      quick_sortF key fuel (arr.filter fun x => key x < pivot) ++
        (arr.filter fun x => key x = pivot) ++
        quick_sortF key fuel (arr.filter fun x => key x > pivot)

/-- `quick_sort(arr, key)`: pivot the middle element's key, keep the
equal-key block as filtered (in input order), recurse on both sides. -/
def quick_sort {α κ : Type _} [LinearOrder κ] (key : α → κ) (arr : List α) :
    List α :=
  quick_sortF key arr.length arr

/-! ## Queue disciplines -/

/-- Errors a run can signal: a Python `KeyError` on `filas[cliente.tipo]`
(unrecognized category under the `'lista'` discipline), or fuel exhaustion
(an artefact of the embedding, proved unreachable for the fuel `simular`
supplies). -/
inductive SimErr where
  | keyError (tipo : String)
  | fuelEsgotado
deriving DecidableEq, Repr

/-- The `'lista'` discipline state: three FIFO deques, one per category
(`deque.append` = push to the back, `popleft` = pop from the front). -/
structure Filas where
  corporativo : List Cliente
  preferencial : List Cliente
  comum : List Cliente
deriving DecidableEq, Repr

def Filas.empty : Filas := ⟨[], [], []⟩

/-- `push = lambda cliente: filas[cliente.tipo].append(cliente)`;
a tipo outside the three fixed keys raises `KeyError`. -/
def pushLista (q : Filas) (c : Cliente) : Except SimErr Filas :=
  if c.tipo = "corporativo" then .ok { q with corporativo := q.corporativo ++ [c] }
  else if c.tipo = "preferencial" then .ok { q with preferencial := q.preferencial ++ [c] }
  else if c.tipo = "comum" then .ok { q with comum := q.comum ++ [c] }
  else .error (.keyError c.tipo)

/-- `pop_from_filas_deque`: first non-empty deque in the fixed order
corporativo, preferencial, comum; `popleft` from it. -/
def pop_from_filas_deque (q : Filas) : Option (Cliente × Filas) :=
  match q.corporativo with
  | c :: rest => some (c, { q with corporativo := rest })
  | [] =>
    match q.preferencial with
    | c :: rest => some (c, { q with preferencial := rest })
    | [] =>
      match q.comum with
      | c :: rest => some (c, { q with comum := rest })
      | [] => none

/-- `any(len(q)>0 for q in filas.values())`, negated. -/
def vazioLista (q : Filas) : Bool :=
  q.corporativo.isEmpty && q.preferencial.isEmpty && q.comum.isEmpty

/-- All customers currently queued in the three deques. -/
def Filas.all (q : Filas) : List Cliente :=
  q.corporativo ++ q.preferencial ++ q.comum

/-- A heap entry `(tipo_prioridade(tipo), chegada, counter, cliente)`. -/
structure Entry where
  prio : Nat
  chegada : ℚ
  counter : Nat
  cliente : Cliente
deriving DecidableEq, Repr

/-- Strict lexicographic order on the first three components of an entry
(the `counter` components of two simultaneously-live entries differ, so a
`heapq` comparison never reaches the `cliente` payload). -/
def entLt (e f : Entry) : Prop :=
  e.prio < f.prio ∨ (e.prio = f.prio ∧ (e.chegada < f.chegada ∨
    (e.chegada = f.chegada ∧ e.counter < f.counter)))

instance : DecidablePred fun p : Entry × Entry => entLt p.1 p.2 := by
  intro p; unfold entLt; infer_instance

instance (e f : Entry) : Decidable (entLt e f) := by
  unfold entLt; infer_instance

/-- The `'prioridade'` discipline state: the heap contents plus the
monotonic `counter` used for the next push. -/
structure HeapSt where
  entries : List Entry
  counter : Nat
deriving DecidableEq, Repr

def HeapSt.empty : HeapSt := ⟨[], 0⟩

/-- `heapq.heappush(heap, (tipo_prioridade(cliente.tipo), cliente.chegada,
counter, cliente)); counter += 1`. -/
def pushHeap (q : HeapSt) (c : Cliente) : Except SimErr HeapSt :=
  .ok ⟨⟨tipo_prioridade c.tipo, c.chegada, q.counter, c⟩ :: q.entries, q.counter + 1⟩

/-- The lexicographically least entry of a non-empty entry list (first
occurrence wins ties, which cannot arise for distinct counters). -/
def minEntry (e : Entry) : List Entry → Entry
  | [] => e
  | f :: rest => minEntry (if entLt f e then f else e) rest

/-- `heapq.heappop(heap)[3]` by the heap contract: remove and return the
least entry; `None` when the heap is empty. -/
def popHeap (q : HeapSt) : Option (Cliente × HeapSt) :=
  match q.entries with
  | [] => none
  | e :: rest =>
    let m := minEntry e rest
    some (m.cliente, ⟨(e :: rest).erase m, q.counter⟩)

def vazioHeap (q : HeapSt) : Bool := q.entries.isEmpty

/-! ## The event loop -/

/-- The inner `while idx_chegada < n and chegadas[idx_chegada].chegada <=
current_time: push(...)` loop: admit every arrival due by `current`,
propagating a push failure. Returns the new queue state and the remaining
(not yet admitted) suffix of `chegadas`. -/
def admitir {σ : Type} (pushF : σ → Cliente → Except SimErr σ) (current : ℚ) :
    σ → List Cliente → Except SimErr (σ × List Cliente)
  | q, [] => .ok (q, [])
  | q, c :: rest =>
    if c.chegada ≤ current then
      match pushF q c with
      | .error e => .error e
      | .ok q' => admitir pushF current q' rest
    else .ok (q, c :: rest)

/-- The `se fila vazia, saltar tempo para próxima chegada` step: when the
queue is empty and arrivals remain, jump `current_time` to
`max(current_time, chegadas[idx_chegada].chegada)`. -/
def saltar (current : ℚ) (rest : List Cliente) (vazio : Bool) : ℚ :=
  match rest with
  | [] => current
  | c :: _ => if vazio then max current c.chegada else current

/-- One simulation run of the `while` loop of `simular`, generic in the
discipline (`pushF`/`popF`/`vazioF` are the closures the Python code
selects up front). `rest` is the still-unadmitted suffix of the sorted
arrival list, `acc` the served customers so far. -/
def loop {σ : Type} (pushF : σ → Cliente → Except SimErr σ)
    (popF : σ → Option (Cliente × σ)) (vazioF : σ → Bool) :
    Nat → ℚ → List Cliente → σ → List Atendido → Except SimErr (List Atendido)
  | 0, _, _, _, _ => .error .fuelEsgotado
  | fuel + 1, current, rest, q, acc =>
    if rest.isEmpty && vazioF q then .ok acc
    else
      let current1 := saltar current rest (vazioF q)
      match admitir pushF current1 q rest with
      | .error e => .error e
      | .ok (q1, rest1) =>
        match popF q1 with
        | none =>
          match rest1 with
          | [] => .ok acc
          | c :: _ => loop pushF popF vazioF fuel (max current1 c.chegada) rest1 q1 acc
        | some (prox, q2) =>
          let inicio := max current1 prox.chegada
          let termino := inicio + prox.tempo_servico
          match admitir pushF termino q2 rest1 with
          | .error e => .error e
          | .ok (q3, rest2) =>
            loop pushF popF vazioF fuel termino rest2 q3
              (acc ++ [⟨prox, inicio, termino⟩])

/-- The statistics dictionary built at the end of `simular` (the provenance
strings `estrutura`, `algoritmo_ordenacao`, `reorder_rule` and the
complexity hint are echoes; the numeric fields are computed). -/
structure Stats where
  n_atendidos : Nat
  tempo_total_espera : ℚ
  tempo_medio_espera : ℚ
  tempo_total_atendimento : ℚ
  estrutura : String
  algoritmo_ordenacao : String
deriving DecidableEq, Repr

/-- The statistics block of `simular`. -/
def mkStats (atendidos : List Atendido) (estrutura algoritmo_ord : String) :
    Stats :=
  let total_espera := (atendidos.map Atendido.espera).sum
  let total_atendimento := (atendidos.map fun a => a.cliente.tempo_servico).sum
  let n := atendidos.length
  { n_atendidos := n
    tempo_total_espera := total_espera
    tempo_medio_espera := if n > 0 then total_espera / (n : ℚ) else 0
    tempo_total_atendimento := total_atendimento
    estrutura := estrutura
    algoritmo_ordenacao := algoritmo_ord }

/-- The arrival list ordered by `chegada` with the chosen algorithm
(`merge_sort` if `algoritmo_ord == 'merge'`, else `quick_sort`). -/
def chegadasDe (clientes : List Cliente) (algoritmo_ord : String) :
    List Cliente :=
  if algoritmo_ord = "merge" then merge_sort (fun x => x.chegada) clientes
  else quick_sort (fun x => x.chegada) clientes

/-- A customer whose category maps to one of the three fixed buckets. -/
def tipoReconhecido (c : Cliente) : Prop :=
  c.tipo = "corporativo" ∨ c.tipo = "preferencial" ∨ c.tipo = "comum"

instance (c : Cliente) : Decidable (tipoReconhecido c) := by
  unfold tipoReconhecido; infer_instance

/-- `simular(clientes, estrutura, algoritmo_ord)`: sort arrivals by
`chegada` with the chosen algorithm, run the event loop with the chosen
discipline, return the statistics and the served list. The fuel
`2 * n + 1` is proved sufficient (`loop_total`). -/
def simular (clientes : List Cliente) (estrutura : String)
    (algoritmo_ord : String) : Except SimErr (Stats × List Atendido) :=
  let chegadas := chegadasDe clientes algoritmo_ord
  let fuel := 2 * chegadas.length + 1
  let run : Except SimErr (List Atendido) :=
    if estrutura = "lista" then
      loop pushLista pop_from_filas_deque vazioLista fuel 0 chegadas Filas.empty []
    else
      loop pushHeap popHeap vazioHeap fuel 0 chegadas HeapSt.empty []
  run.map fun atendidos => (mkStats atendidos estrutura algoritmo_ord, atendidos)

/-- Decidable equality of run results (needed to evaluate concrete runs). -/
instance {ε α : Type _} [DecidableEq ε] [DecidableEq α] :
    DecidableEq (Except ε α) := fun x y =>
  match x, y with
  | .ok a, .ok b =>
    if h : a = b then isTrue (by rw [h]) else isFalse (fun hc => h (Except.ok.inj hc))
  | .error e, .error f =>
    if h : e = f then isTrue (by rw [h]) else isFalse (fun hc => h (Except.error.inj hc))
  | .ok _, .error _ => isFalse (fun hc => Except.noConfusion hc)
  | .error _, .ok _ => isFalse (fun hc => Except.noConfusion hc)

/-- The heap contents, as the customers carried by the entries. -/
def HeapSt.clientes (q : HeapSt) : List Cliente :=
  q.entries.map Entry.cliente

/-- Well-formed partitioned state: every queued customer sits in the
bucket of its own category (true of every state reached by `push`). -/
def Filas.WF (q : Filas) : Prop :=
  (∀ c ∈ q.corporativo, c.tipo = "corporativo") ∧
  (∀ c ∈ q.preferencial, c.tipo = "preferencial") ∧
  (∀ c ∈ q.comum, c.tipo = "comum")

instance (q : Filas) : Decidable q.WF := by
  unfold Filas.WF; infer_instance

/-- Well-formed heap state: every entry's rank is the rank derived from
its customer's category (true by construction in `pushHeap`). -/
def HeapSt.WF (q : HeapSt) : Prop :=
  ∀ e ∈ q.entries, e.prio = tipo_prioridade e.cliente.tipo

/-- Bisimulation relation between a partitioned-FIFO state and a heap
state, given the pending (arrival-sorted) suffix `rest`: the heap entries
decompose into the three buckets, each bucket is strictly increasing in
the lexicographic entry order, entries are well formed with counters below
the next counter, and no queued entry arrived later than a pending
arrival. -/
def Rel (q : Filas) (hp : HeapSt) (rest : List Cliente) : Prop :=
  ∃ ec ep em : List Entry,
    List.Perm hp.entries (ec ++ ep ++ em) ∧
    ec.map Entry.cliente = q.corporativo ∧
    ep.map Entry.cliente = q.preferencial ∧
    em.map Entry.cliente = q.comum ∧
    (∀ e ∈ ec, e.prio = 1) ∧
    (∀ e ∈ ep, e.prio = 2) ∧
    (∀ e ∈ em, e.prio = 3) ∧
    (∀ e ∈ hp.entries, e.prio = tipo_prioridade e.cliente.tipo ∧
      e.chegada = e.cliente.chegada ∧ e.counter < hp.counter) ∧
    ec.Pairwise entLt ∧ ep.Pairwise entLt ∧ em.Pairwise entLt ∧
    (∀ e ∈ hp.entries, ∀ c ∈ rest, e.chegada ≤ c.chegada) ∧
    rest.Pairwise (fun a b => a.chegada ≤ b.chegada)

/-! ### Concrete customers used in the scenario claims -/

/-- `A(regular, dur=5, arr=0)` — `regular` is `comum` in the source. -/
def clienteA : Cliente := ⟨1, "A", "comum", 5, 0⟩

/-- `B(corporate, dur=3, arr=1)`. -/
def clienteB : Cliente := ⟨2, "B", "corporativo", 3, 1⟩

/-- `C(preferred, dur=2, arr=1)`. -/
def clienteC : Cliente := ⟨3, "C", "preferencial", 2, 1⟩

/-- A customer with an unrecognized category. -/
def clienteVip : Cliente := ⟨4, "V", "vip", 2, 0⟩

/-- A customer with a negative service duration. -/
def clienteNeg : Cliente := ⟨5, "N", "comum", -5, 0⟩

/-! ## Sort module: correctness lemmas -/

section SortProofs

open List

variable {α : Type _} {κ : Type _} [LinearOrder κ] (key : α → κ)

theorem merge_runs_perm : ∀ (l₁ l₂ : List α), merge_runs key l₁ l₂ ~ l₁ ++ l₂
  | [], l₂ => by simp [merge_runs]
  | x :: l₁, [] => by simp [merge_runs]
  | x :: l₁, y :: l₂ => by
    rw [merge_runs]
    split
    · exact (merge_runs_perm l₁ (y :: l₂)).cons x
    · calc y :: merge_runs key (x :: l₁) l₂
          ~ y :: (x :: l₁ ++ l₂) := (merge_runs_perm (x :: l₁) l₂).cons y
        _ ~ (x :: l₁) ++ y :: l₂ := List.perm_middle.symm

theorem merge_runs_mem {a : α} {l₁ l₂ : List α} :
    a ∈ merge_runs key l₁ l₂ ↔ a ∈ l₁ ∨ a ∈ l₂ := by
  rw [(merge_runs_perm key l₁ l₂).mem_iff, List.mem_append]

theorem merge_runs_sorted : ∀ {l₁ l₂ : List α},
    l₁.Pairwise (fun a b => key a ≤ key b) →
    l₂.Pairwise (fun a b => key a ≤ key b) →
    (merge_runs key l₁ l₂).Pairwise (fun a b => key a ≤ key b)
  | [], l₂, _, h₂ => by simpa [merge_runs] using h₂
  | x :: l₁, [], h₁, _ => by simpa [merge_runs] using h₁
  | x :: l₁, y :: l₂, h₁, h₂ => by
    rw [List.pairwise_cons] at h₁ h₂
    rw [merge_runs]
    split
    · rename_i hxy
      rw [List.pairwise_cons]
      refine ⟨fun b hb => ?_, merge_runs_sorted h₁.2 (List.pairwise_cons.2 h₂)⟩
      rcases (merge_runs_mem key).1 hb with hb | hb
      · exact h₁.1 b hb
      · rcases List.mem_cons.1 hb with rfl | hb
        · exact hxy
        · exact le_trans hxy (h₂.1 b hb)
    · rename_i hxy
      push_neg at hxy
      rw [List.pairwise_cons]
      refine ⟨fun b hb => ?_, merge_runs_sorted (List.pairwise_cons.2 h₁) h₂.2⟩
      rcases (merge_runs_mem key).1 hb with hb | hb
      · rcases List.mem_cons.1 hb with rfl | hb
        · exact le_of_lt hxy
        · exact le_trans (le_of_lt hxy) (h₁.1 b hb)
      · exact h₂.1 b hb

/-- Stability of the merge step: because the left run is taken on equal
keys, the equal-key sublists concatenate left-then-right (the left run
must be sorted). -/
theorem merge_runs_filter (k : κ) : ∀ {l₁ l₂ : List α},
    l₁.Pairwise (fun a b => key a ≤ key b) →
    (merge_runs key l₁ l₂).filter (fun a => key a = k) =
      l₁.filter (fun a => key a = k) ++ l₂.filter (fun a => key a = k)
  | [], l₂, _ => by simp [merge_runs]
  | x :: l₁, [], _ => by simp [merge_runs]
  | x :: l₁, y :: l₂, h₁ => by
    rw [List.pairwise_cons] at h₁
    rw [merge_runs]
    split
    · rename_i hxy
      rw [List.filter_cons, List.filter_cons,
        merge_runs_filter k h₁.2]
      split <;> simp
    · rename_i hxy
      push_neg at hxy
      rw [List.filter_cons, merge_runs_filter k (List.pairwise_cons.2 h₁)]
      by_cases hyk : key y = k
      · have hx : ∀ a ∈ x :: l₁, ¬ (key a = k) := by
          intro a ha
          rcases List.mem_cons.1 ha with rfl | ha
          · exact fun hc => absurd (hc ▸ hyk ▸ hxy) (lt_irrefl _)
          · intro hc
            exact absurd (lt_of_lt_of_le (hc ▸ hyk ▸ hxy) (h₁.1 a ha)) (lt_irrefl _)
        have hnil : (x :: l₁).filter (fun a => key a = k) = [] := by
          rw [List.filter_eq_nil_iff]
          intro a ha
          simpa using hx a ha
        simp [hnil, List.filter_cons, hyk]
      · simp [List.filter_cons, hyk]

theorem merge_sortF_perm : ∀ (fuel : Nat) (arr : List α), arr.length ≤ fuel →
    merge_sortF key fuel arr ~ arr
  | 0, arr, h => by
    have : arr = [] := List.length_eq_zero.1 (Nat.le_zero.1 h)
    simp [this, merge_sortF]
  | fuel + 1, arr, h => by
    rw [merge_sortF]
    split
    · exact .refl _
    · rename_i hlen
      push_neg at hlen
      have h₁ : (arr.take (arr.length / 2)).length ≤ fuel := by
        simp only [List.length_take]; omega
      have h₂ : (arr.drop (arr.length / 2)).length ≤ fuel := by
        simp only [List.length_drop]; omega
      calc merge_runs key (merge_sortF key fuel (arr.take (arr.length / 2)))
            (merge_sortF key fuel (arr.drop (arr.length / 2)))
          ~ merge_sortF key fuel (arr.take (arr.length / 2)) ++
              merge_sortF key fuel (arr.drop (arr.length / 2)) :=
            merge_runs_perm key _ _
        _ ~ arr.take (arr.length / 2) ++ arr.drop (arr.length / 2) :=
            (merge_sortF_perm fuel _ h₁).append (merge_sortF_perm fuel _ h₂)
        _ = arr := List.take_append_drop _ _

theorem merge_sortF_sorted : ∀ (fuel : Nat) (arr : List α), arr.length ≤ fuel →
    (merge_sortF key fuel arr).Pairwise (fun a b => key a ≤ key b)
  | 0, arr, h => by
    have : arr = [] := List.length_eq_zero.1 (Nat.le_zero.1 h)
    simp [this, merge_sortF]
  | fuel + 1, arr, h => by
    rw [merge_sortF]
    split
    · rename_i hlen
      match arr, hlen with
      | [], _ => simp
      | [a], _ => simp
      | a :: b :: arr, hlen => simp at hlen
    · rename_i hlen
      push_neg at hlen
      have h₁ : (arr.take (arr.length / 2)).length ≤ fuel := by
        simp only [List.length_take]; omega
      have h₂ : (arr.drop (arr.length / 2)).length ≤ fuel := by
        simp only [List.length_drop]; omega
      exact merge_runs_sorted key (merge_sortF_sorted fuel _ h₁)
        (merge_sortF_sorted fuel _ h₂)

theorem merge_sortF_filter (k : κ) : ∀ (fuel : Nat) (arr : List α),
    arr.length ≤ fuel →
    (merge_sortF key fuel arr).filter (fun a => key a = k) =
      arr.filter (fun a => key a = k)
  | 0, arr, h => by
    have : arr = [] := List.length_eq_zero.1 (Nat.le_zero.1 h)
    simp [this, merge_sortF]
  | fuel + 1, arr, h => by
    rw [merge_sortF]
    split
    · rfl
    · rename_i hlen
      push_neg at hlen
      have h₁ : (arr.take (arr.length / 2)).length ≤ fuel := by
        simp only [List.length_take]; omega
      have h₂ : (arr.drop (arr.length / 2)).length ≤ fuel := by
        simp only [List.length_drop]; omega
      rw [merge_runs_filter key k (merge_sortF_sorted key fuel _ h₁),
        merge_sortF_filter k fuel _ h₁, merge_sortF_filter k fuel _ h₂,
        ← List.filter_append, List.take_append_drop]

theorem merge_sort_perm (l : List α) : merge_sort key l ~ l :=
  merge_sortF_perm key l.length l le_rfl

theorem merge_sort_sorted (l : List α) :
    (merge_sort key l).Pairwise (fun a b => key a ≤ key b) :=
  merge_sortF_sorted key l.length l le_rfl

theorem merge_sort_filter (k : κ) (l : List α) :
    (merge_sort key l).filter (fun a => key a = k) =
      l.filter (fun a => key a = k) :=
  merge_sortF_filter key k l.length l le_rfl

/-- Three-way partition against a pivot key is a permutation of the list. -/
theorem partition3_perm (p : κ) : ∀ l : List α,
    l ~ l.filter (fun x => key x < p) ++ (l.filter (fun x => key x = p) ++
      l.filter (fun x => key x > p))
  | [] => by simp
  | x :: l => by
    rcases lt_trichotomy (key x) p with h | h | h
    · have hfA : (x :: l).filter (fun x => key x < p) =
          x :: l.filter (fun x => key x < p) := by simp [List.filter_cons, h]
      have hfM : (x :: l).filter (fun x => key x = p) =
          l.filter (fun x => key x = p) := by simp [List.filter_cons, ne_of_lt h]
      have hfB : (x :: l).filter (fun x => key x > p) =
          l.filter (fun x => key x > p) := by simp [List.filter_cons, asymm h]
      rw [hfA, hfM, hfB]
      exact (partition3_perm p l).cons x
    · have h1 : ¬ (key x < p) := by rw [h]; exact lt_irrefl p
      have h3 : ¬ (key x > p) := by rw [h]; exact lt_irrefl p
      have hfA : (x :: l).filter (fun x => key x < p) =
          l.filter (fun x => key x < p) := by simp [List.filter_cons, h1]
      have hfM : (x :: l).filter (fun x => key x = p) =
          x :: l.filter (fun x => key x = p) := by simp [List.filter_cons, h]
      have hfB : (x :: l).filter (fun x => key x > p) =
          l.filter (fun x => key x > p) := by simp [List.filter_cons, h3]
      rw [hfA, hfM, hfB]
      exact ((partition3_perm p l).cons x).trans List.perm_middle.symm
    · have h1 : ¬ (key x < p) := asymm h
      have hfA : (x :: l).filter (fun x => key x < p) =
          l.filter (fun x => key x < p) := by simp [List.filter_cons, h1]
      have hfM : (x :: l).filter (fun x => key x = p) =
          l.filter (fun x => key x = p) := by simp [List.filter_cons, ne_of_gt h]
      have hfB : (x :: l).filter (fun x => key x > p) =
          x :: l.filter (fun x => key x > p) := by simp [List.filter_cons, h]
      rw [hfA, hfM, hfB]
      have hstep : x :: (l.filter (fun x => key x < p) ++
          (l.filter (fun x => key x = p) ++ l.filter (fun x => key x > p))) ~
          l.filter (fun x => key x < p) ++ (l.filter (fun x => key x = p) ++
            x :: l.filter (fun x => key x > p)) := by
        calc x :: (l.filter (fun x => key x < p) ++
              (l.filter (fun x => key x = p) ++ l.filter (fun x => key x > p)))
            = x :: ((l.filter (fun x => key x < p) ++ l.filter (fun x => key x = p)) ++
                l.filter (fun x => key x > p)) := by rw [List.append_assoc]
          _ ~ (l.filter (fun x => key x < p) ++ l.filter (fun x => key x = p)) ++
                x :: l.filter (fun x => key x > p) := List.perm_middle.symm
          _ = _ := by rw [List.append_assoc]
      exact ((partition3_perm p l).cons x).trans hstep

/-- Unfolding of `quick_sortF` on a list of length at least 2. -/
theorem quick_sortF_succ (fuel : Nat) (arr : List α) (hle : ¬ arr.length ≤ 1)
    (hidx : arr.length / 2 < arr.length) :
    quick_sortF key (fuel + 1) arr =
      quick_sortF key fuel
          (arr.filter fun x => key x < key (arr.get ⟨arr.length / 2, hidx⟩)) ++
        ((arr.filter fun x => key x = key (arr.get ⟨arr.length / 2, hidx⟩)) ++
          quick_sortF key fuel
            (arr.filter fun x => key x > key (arr.get ⟨arr.length / 2, hidx⟩))) := by
  rw [quick_sortF, dif_neg hle]
  simp only [List.append_assoc]

theorem quick_sortF_perm : ∀ (fuel : Nat) (arr : List α), arr.length ≤ fuel →
    quick_sortF key fuel arr ~ arr
  | 0, arr, h => by
    have : arr = [] := List.length_eq_zero.1 (Nat.le_zero.1 h)
    simp [this, quick_sortF]
  | fuel + 1, arr, h => by
    by_cases hle : arr.length ≤ 1
    · rw [quick_sortF, dif_pos hle]
    · have hidx : arr.length / 2 < arr.length := by omega
      rw [quick_sortF_succ key fuel arr hle hidx]
      set pivot := key (arr.get ⟨arr.length / 2, hidx⟩) with hpivot
      have hpv : arr.get ⟨arr.length / 2, hidx⟩ ∈ arr := arr.get_mem _ _
      have hA : (arr.filter fun x => key x < pivot).length ≤ fuel := by
        have hlt : (arr.filter fun x => key x < pivot).length < arr.length := by
          apply List.length_filter_lt_length_iff_exists.2
          exact ⟨_, hpv, by simp [hpivot]⟩
        omega
      have hB : (arr.filter fun x => key x > pivot).length ≤ fuel := by
        have hlt : (arr.filter fun x => key x > pivot).length < arr.length := by
          apply List.length_filter_lt_length_iff_exists.2
          exact ⟨_, hpv, by simp [hpivot]⟩
        omega
      calc quick_sortF key fuel (arr.filter fun x => key x < pivot) ++
            ((arr.filter fun x => key x = pivot) ++
              quick_sortF key fuel (arr.filter fun x => key x > pivot))
          ~ (arr.filter fun x => key x < pivot) ++
            ((arr.filter fun x => key x = pivot) ++
              (arr.filter fun x => key x > pivot)) :=
            (quick_sortF_perm fuel _ hA).append
              (Perm.append_left _ (quick_sortF_perm fuel _ hB))
        _ ~ arr := (partition3_perm key pivot arr).symm

theorem quick_sortF_sorted : ∀ (fuel : Nat) (arr : List α), arr.length ≤ fuel →
    (quick_sortF key fuel arr).Pairwise (fun a b => key a ≤ key b)
  | 0, arr, h => by
    have : arr = [] := List.length_eq_zero.1 (Nat.le_zero.1 h)
    simp [this, quick_sortF]
  | fuel + 1, arr, h => by
    by_cases hle : arr.length ≤ 1
    · rw [quick_sortF, dif_pos hle]
      match arr, hle with
      | [], _ => simp
      | [a], _ => simp
    · have hidx : arr.length / 2 < arr.length := by omega
      rw [quick_sortF_succ key fuel arr hle hidx]
      set pivot := key (arr.get ⟨arr.length / 2, hidx⟩) with hpivot
      have hpv : arr.get ⟨arr.length / 2, hidx⟩ ∈ arr := arr.get_mem _ _
      have hA : (arr.filter fun x => key x < pivot).length ≤ fuel := by
        have hlt : (arr.filter fun x => key x < pivot).length < arr.length := by
          apply List.length_filter_lt_length_iff_exists.2
          exact ⟨_, hpv, by simp [hpivot]⟩
        omega
      have hB : (arr.filter fun x => key x > pivot).length ≤ fuel := by
        have hlt : (arr.filter fun x => key x > pivot).length < arr.length := by
          apply List.length_filter_lt_length_iff_exists.2
          exact ⟨_, hpv, by simp [hpivot]⟩
        omega
      have memA : ∀ a ∈ quick_sortF key fuel (arr.filter fun x => key x < pivot),
          key a < pivot := by
        intro a ha
        have := (quick_sortF_perm key fuel _ hA).mem_iff.1 ha
        simpa using (List.mem_filter.1 this).2
      have memB : ∀ a ∈ quick_sortF key fuel (arr.filter fun x => key x > pivot),
          key a > pivot := by
        intro a ha
        have := (quick_sortF_perm key fuel _ hB).mem_iff.1 ha
        simpa using (List.mem_filter.1 this).2
      have memM : ∀ a ∈ (arr.filter fun x => key x = pivot), key a = pivot := by
        intro a ha
        simpa using (List.mem_filter.1 ha).2
      rw [List.pairwise_append]
      refine ⟨quick_sortF_sorted fuel _ hA, ?_, ?_⟩
      · rw [List.pairwise_append]
        refine ⟨?_, quick_sortF_sorted fuel _ hB, ?_⟩
        · exact List.Pairwise.imp_of_mem
            (fun {a b} ha hb _ => le_of_eq ((memM a ha).trans (memM b hb).symm))
            (List.pairwise_of_forall_mem_list fun a _ b _ => trivial)
        · intro a ha b hb
          exact le_of_lt ((memM a ha) ▸ memB b hb)
      · intro a ha b hb
        rcases List.mem_append.1 hb with hb | hb
        · exact le_of_lt (lt_of_lt_of_le (memA a ha) (le_of_eq (memM b hb).symm))
        · exact le_of_lt (lt_trans (memA a ha) (memB b hb))

/-- Stability of `quick_sort`: the filter-based partition preserves the
relative order of equal-key elements at every level. -/
theorem quick_sortF_filter (k : κ) : ∀ (fuel : Nat) (arr : List α),
    arr.length ≤ fuel →
    (quick_sortF key fuel arr).filter (fun a => key a = k) =
      arr.filter (fun a => key a = k)
  | 0, arr, h => by
    have : arr = [] := List.length_eq_zero.1 (Nat.le_zero.1 h)
    simp [this, quick_sortF]
  | fuel + 1, arr, h => by
    by_cases hle : arr.length ≤ 1
    · rw [quick_sortF, dif_pos hle]
    · have hidx : arr.length / 2 < arr.length := by omega
      rw [quick_sortF_succ key fuel arr hle hidx]
      set pivot := key (arr.get ⟨arr.length / 2, hidx⟩) with hpivot
      have hpv : arr.get ⟨arr.length / 2, hidx⟩ ∈ arr := arr.get_mem _ _
      have hA : (arr.filter fun x => key x < pivot).length ≤ fuel := by
        have hlt : (arr.filter fun x => key x < pivot).length < arr.length := by
          apply List.length_filter_lt_length_iff_exists.2
          exact ⟨_, hpv, by simp [hpivot]⟩
        omega
      have hB : (arr.filter fun x => key x > pivot).length ≤ fuel := by
        have hlt : (arr.filter fun x => key x > pivot).length < arr.length := by
          apply List.length_filter_lt_length_iff_exists.2
          exact ⟨_, hpv, by simp [hpivot]⟩
        omega
      rw [List.filter_append, List.filter_append,
        quick_sortF_filter k fuel _ hA, quick_sortF_filter k fuel _ hB,
        List.filter_filter, List.filter_filter, List.filter_filter]
      rcases lt_trichotomy k pivot with hk | hk | hk
      · have e1 : arr.filter (fun a => decide (key a = k) && decide (key a < pivot)) =
            arr.filter (fun a => key a = k) := by
          apply List.filter_congr
          intro a _
          by_cases hak : key a = k
          · simp [hak, hk]
          · simp [hak]
        have e2 : arr.filter (fun a => decide (key a = k) && decide (key a = pivot)) = [] := by
          rw [List.filter_eq_nil_iff]
          intro a _
          by_cases hak : key a = k
          · simp [hak, ne_of_lt hk]
          · simp [hak]
        have e3 : arr.filter (fun a => decide (key a = k) && decide (key a > pivot)) = [] := by
          rw [List.filter_eq_nil_iff]
          intro a _
          by_cases hak : key a = k
          · simp [hak, asymm hk]
          · simp [hak]
        rw [e1, e2, e3, List.append_nil, List.append_nil]
      · have e1 : arr.filter (fun a => decide (key a = k) && decide (key a < pivot)) = [] := by
          rw [List.filter_eq_nil_iff]
          intro a _
          by_cases hak : key a = k
          · simp [hak, hk]
          · simp [hak]
        have e2 : arr.filter (fun a => decide (key a = k) && decide (key a = pivot)) =
            arr.filter (fun a => key a = k) := by
          apply List.filter_congr
          intro a _
          by_cases hak : key a = k
          · simp [hak, hk]
          · simp [hak]
        have e3 : arr.filter (fun a => decide (key a = k) && decide (key a > pivot)) = [] := by
          rw [List.filter_eq_nil_iff]
          intro a _
          by_cases hak : key a = k
          · simp [hak, hk]
          · simp [hak]
        rw [e1, e2, e3, List.nil_append, List.append_nil]
      · have e1 : arr.filter (fun a => decide (key a = k) && decide (key a < pivot)) = [] := by
          rw [List.filter_eq_nil_iff]
          intro a _
          by_cases hak : key a = k
          · simp [hak, asymm hk]
          · simp [hak]
        have e2 : arr.filter (fun a => decide (key a = k) && decide (key a = pivot)) = [] := by
          rw [List.filter_eq_nil_iff]
          intro a _
          by_cases hak : key a = k
          · simp [hak, ne_of_gt hk]
          · simp [hak]
        have e3 : arr.filter (fun a => decide (key a = k) && decide (key a > pivot)) =
            arr.filter (fun a => key a = k) := by
          apply List.filter_congr
          intro a _
          by_cases hak : key a = k
          · simp [hak, hk]
          · simp [hak]
        rw [e1, e2, e3, List.nil_append, List.nil_append]

theorem quick_sort_perm (l : List α) : quick_sort key l ~ l :=
  quick_sortF_perm key l.length l le_rfl

theorem quick_sort_sorted (l : List α) :
    (quick_sort key l).Pairwise (fun a b => key a ≤ key b) :=
  quick_sortF_sorted key l.length l le_rfl

theorem quick_sort_filter (k : κ) (l : List α) :
    (quick_sort key l).filter (fun a => key a = k) =
      l.filter (fun a => key a = k) :=
  quick_sortF_filter key k l.length l le_rfl

end SortProofs

/-! ## Event loop: generic lemmas -/

section LoopProofs

open List

variable {σ : Type} {pushF : σ → Cliente → Except SimErr σ}
  {popF : σ → Option (Cliente × σ)} {vazioF : σ → Bool}

theorem admitir_suffix {current : ℚ} : ∀ {q : σ} {rest : List Cliente}
    {q' : σ} {rest' : List Cliente},
    admitir pushF current q rest = .ok (q', rest') → rest' <:+ rest
  | q, [], q', rest', h => by
    simp only [admitir] at h
    obtain ⟨rfl, rfl⟩ : q = q' ∧ ([] : List Cliente) = rest' := by
      have := Except.ok.inj h
      exact ⟨congrArg Prod.fst this, congrArg Prod.snd this⟩
    exact List.suffix_refl _
  | q, c :: rs, q', rest', h => by
    simp only [admitir] at h
    split at h
    · cases hpush : pushF q c with
      | error e => rw [hpush] at h; cases h
      | ok q1 =>
        rw [hpush] at h
        exact (admitir_suffix h).trans (List.suffix_cons c rs)
    · obtain ⟨rfl, rfl⟩ : q = q' ∧ c :: rs = rest' := by
        have := Except.ok.inj h
        exact ⟨congrArg Prod.fst this, congrArg Prod.snd this⟩
      exact List.suffix_refl _

/-- Conservation through `admitir`: the queued contents plus the pending
arrivals are preserved as a multiset. -/
theorem admitir_contents (contents : σ → List Cliente)
    (hpush : ∀ (q : σ) (c : Cliente) (q' : σ), pushF q c = .ok q' →
      contents q' ~ c :: contents q) {current : ℚ} :
    ∀ {q : σ} {rest : List Cliente} {q' : σ} {rest' : List Cliente},
    admitir pushF current q rest = .ok (q', rest') →
    contents q' ++ rest' ~ contents q ++ rest
  | q, [], q', rest', h => by
    simp only [admitir] at h
    obtain ⟨rfl, rfl⟩ : q = q' ∧ ([] : List Cliente) = rest' := by
      have := Except.ok.inj h
      exact ⟨congrArg Prod.fst this, congrArg Prod.snd this⟩
    exact .refl _
  | q, c :: rs, q', rest', h => by
    simp only [admitir] at h
    split at h
    · cases hpush1 : pushF q c with
      | error e => rw [hpush1] at h; cases h
      | ok q1 =>
        rw [hpush1] at h
        calc contents q' ++ rest' ~ contents q1 ++ rs :=
              admitir_contents contents hpush h
          _ ~ (c :: contents q) ++ rs := (hpush q c q1 hpush1).append_right rs
          _ ~ contents q ++ c :: rs := List.perm_middle.symm
    · obtain ⟨rfl, rfl⟩ : q = q' ∧ c :: rs = rest' := by
        have := Except.ok.inj h
        exact ⟨congrArg Prod.fst this, congrArg Prod.snd this⟩
      exact .refl _

/-- Size bookkeeping through `admitir`. -/
theorem admitir_size (size : σ → Nat)
    (hpush : ∀ (q : σ) (c : Cliente) (q' : σ), pushF q c = .ok q' →
      size q' = size q + 1) {current : ℚ} :
    ∀ {q : σ} {rest : List Cliente} {q' : σ} {rest' : List Cliente},
    admitir pushF current q rest = .ok (q', rest') →
    size q' + rest'.length = size q + rest.length
  | q, [], q', rest', h => by
    simp only [admitir] at h
    obtain ⟨rfl, rfl⟩ : q = q' ∧ ([] : List Cliente) = rest' := by
      have := Except.ok.inj h
      exact ⟨congrArg Prod.fst this, congrArg Prod.snd this⟩
    rfl
  | q, c :: rs, q', rest', h => by
    simp only [admitir] at h
    split at h
    · cases hpush1 : pushF q c with
      | error e => rw [hpush1] at h; cases h
      | ok q1 =>
        rw [hpush1] at h
        have := admitir_size size hpush h
        have := hpush q c q1 hpush1
        simp only [List.length_cons]
        omega
    · obtain ⟨rfl, rfl⟩ : q = q' ∧ c :: rs = rest' := by
        have := Except.ok.inj h
        exact ⟨congrArg Prod.fst this, congrArg Prod.snd this⟩
      rfl

/-- `admitir` succeeds when every pending push succeeds. -/
theorem admitir_ok {current : ℚ} :
    ∀ {q : σ} {rest : List Cliente},
    (∀ (q1 : σ) (c : Cliente), c ∈ rest → ∃ q', pushF q1 c = .ok q') →
    ∃ q' rest', admitir pushF current q rest = .ok (q', rest')
  | q, [], _ => ⟨q, [], rfl⟩
  | q, c :: rs, hp => by
    simp only [admitir]
    split
    · obtain ⟨q1, hq1⟩ := hp q c (List.mem_cons_self c rs)
      rw [hq1]
      exact admitir_ok fun q2 c' hc' => hp q2 c' (List.mem_cons_of_mem c hc')
    · exact ⟨q, c :: rs, rfl⟩

/-- Timestamp invariant: every customer the loop appends is stamped
`inicio = max(current, chegada)` (hence `inicio ≥ chegada`) and
`termino = inicio + tempo_servico`. -/
theorem loop_timestamps :
    ∀ (fuel : Nat) (current : ℚ) (rest : List Cliente) (q : σ)
      (acc out : List Atendido),
    loop pushF popF vazioF fuel current rest q acc = .ok out →
    (∀ a ∈ acc, a.cliente.chegada ≤ a.inicio ∧
      a.termino = a.inicio + a.cliente.tempo_servico) →
    ∀ a ∈ out, a.cliente.chegada ≤ a.inicio ∧
      a.termino = a.inicio + a.cliente.tempo_servico
  | 0, current, rest, q, acc, out, h, hacc => by cases h
  | fuel + 1, current, rest, q, acc, out, h, hacc => by
    simp only [loop] at h
    by_cases hg : (rest.isEmpty && vazioF q) = true
    · rw [if_pos hg] at h
      cases h
      exact hacc
    · rw [if_neg hg] at h
      cases hadm : admitir pushF (saltar current rest (vazioF q)) q rest with
      | error e => rw [hadm] at h; cases h
      | ok pr =>
        obtain ⟨q1, rest1⟩ := pr
        rw [hadm] at h
        simp only [] at h
        cases hpop : popF q1 with
        | none =>
          rw [hpop] at h
          simp only [] at h
          cases rest1 with
          | nil => cases h; exact hacc
          | cons c rs => exact loop_timestamps fuel _ _ _ _ _ h hacc
        | some pr2 =>
          obtain ⟨prox, q2⟩ := pr2
          rw [hpop] at h
          simp only [] at h
          cases hadm2 : admitir pushF
              (max (saltar current rest (vazioF q)) prox.chegada +
                prox.tempo_servico) q2 rest1 with
          | error e => rw [hadm2] at h; cases h
          | ok pr3 =>
            obtain ⟨q3, rest2⟩ := pr3
            rw [hadm2] at h
            simp only [] at h
            refine loop_timestamps fuel _ _ _ _ _ h ?_
            intro a ha
            rcases List.mem_append.1 ha with ha | ha
            · exact hacc a ha
            · rcases List.mem_singleton.1 ha with rfl
              exact ⟨le_max_right _ _, rfl⟩

/-- Conservation: the served output, the queued contents and the pending
arrivals together form a fixed multiset of customers. -/
theorem loop_contents (contents : σ → List Cliente)
    (hpush : ∀ (q : σ) (c : Cliente) (q' : σ), pushF q c = .ok q' →
      contents q' ~ c :: contents q)
    (hpop : ∀ (q : σ) (c : Cliente) (q' : σ), popF q = some (c, q') →
      contents q ~ c :: contents q')
    (hpop_none : ∀ q : σ, popF q = none → contents q = [])
    (hvazio : ∀ q : σ, vazioF q = true → contents q = []) :
    ∀ (fuel : Nat) (current : ℚ) (rest : List Cliente) (q : σ)
      (acc out : List Atendido),
    loop pushF popF vazioF fuel current rest q acc = .ok out →
    out.map Atendido.cliente ~
      acc.map Atendido.cliente ++ (contents q ++ rest)
  | 0, current, rest, q, acc, out, h => by cases h
  | fuel + 1, current, rest, q, acc, out, h => by
    simp only [loop] at h
    by_cases hg : (rest.isEmpty && vazioF q) = true
    · rw [if_pos hg] at h
      cases h
      rw [Bool.and_eq_true] at hg
      rw [hvazio q hg.2, List.isEmpty_iff.1 hg.1]
      simp
    · rw [if_neg hg] at h
      cases hadm : admitir pushF (saltar current rest (vazioF q)) q rest with
      | error e => rw [hadm] at h; cases h
      | ok pr =>
        obtain ⟨q1, rest1⟩ := pr
        rw [hadm] at h
        simp only [] at h
        have hc1 : contents q1 ++ rest1 ~ contents q ++ rest :=
          admitir_contents contents hpush hadm
        cases hpop1 : popF q1 with
        | none =>
          rw [hpop1] at h
          simp only [] at h
          cases rest1 with
          | nil =>
            cases h
            have : contents q ++ rest ~ [] := by
              simpa [hpop_none q1 hpop1] using hc1.symm
            rw [List.Perm.eq_nil this.symm.symm]
            simp
          | cons c rs =>
            calc out.map Atendido.cliente
                ~ acc.map Atendido.cliente ++ (contents q1 ++ (c :: rs)) :=
                  loop_contents contents hpush hpop hpop_none hvazio
                    fuel _ _ _ _ _ h
              _ ~ acc.map Atendido.cliente ++ (contents q ++ rest) :=
                  (hc1.append_left _)
        | some pr2 =>
          obtain ⟨prox, q2⟩ := pr2
          rw [hpop1] at h
          simp only [] at h
          cases hadm2 : admitir pushF
              (max (saltar current rest (vazioF q)) prox.chegada +
                prox.tempo_servico) q2 rest1 with
          | error e => rw [hadm2] at h; cases h
          | ok pr3 =>
            obtain ⟨q3, rest2⟩ := pr3
            rw [hadm2] at h
            simp only [] at h
            have hc2 : contents q3 ++ rest2 ~ contents q2 ++ rest1 :=
              admitir_contents contents hpush hadm2
            have hstep : [prox] ++ (contents q3 ++ rest2) ~ contents q ++ rest := by
              calc [prox] ++ (contents q3 ++ rest2)
                  ~ [prox] ++ (contents q2 ++ rest1) := hc2.append_left _
                _ = (prox :: contents q2) ++ rest1 := by simp
                _ ~ contents q1 ++ rest1 :=
                    ((hpop q1 prox q2 hpop1).symm.append_right rest1)
                _ ~ contents q ++ rest := hc1
            have hrec := loop_contents contents hpush hpop hpop_none hvazio
              fuel _ _ _ _ _ h
            calc out.map Atendido.cliente
                ~ (acc ++ [(⟨prox, max (saltar current rest (vazioF q)) prox.chegada,
                    max (saltar current rest (vazioF q)) prox.chegada +
                      prox.tempo_servico⟩ : Atendido)]).map Atendido.cliente ++
                    (contents q3 ++ rest2) := hrec
              _ = acc.map Atendido.cliente ++ ([prox] ++ (contents q3 ++ rest2)) := by
                  simp
              _ ~ acc.map Atendido.cliente ++ (contents q ++ rest) :=
                  hstep.append_left _

/-- Totality: with pushes that succeed on the pending arrivals and a
faithful size function, fuel `2 * (pending + queued) + 1` suffices and the
loop returns normally. The second disjunct is the `continue` state: the
queue is empty and the head arrival is already due. -/
theorem loop_total (OKC : Cliente → Prop) (size : σ → Nat)
    (hpush_ok : ∀ (q : σ) (c : Cliente), OKC c → ∃ q', pushF q c = .ok q')
    (hpush_size : ∀ (q : σ) (c : Cliente) (q' : σ), pushF q c = .ok q' →
      size q' = size q + 1)
    (hpop_none : ∀ q : σ, popF q = none → size q = 0)
    (hpop_size : ∀ (q : σ) (c : Cliente) (q' : σ), popF q = some (c, q') →
      size q = size q' + 1)
    (hvazio : ∀ q : σ, size q = 0 → vazioF q = true) :
    ∀ (fuel : Nat) (current : ℚ) (rest : List Cliente) (q : σ)
      (acc : List Atendido),
    (∀ c ∈ rest, OKC c) →
    (2 * (rest.length + size q) + 1 ≤ fuel ∨
      (2 * (rest.length + size q) ≤ fuel ∧ size q = 0 ∧
        ∃ c rs, rest = c :: rs ∧ c.chegada ≤ current)) →
    ∃ out, loop pushF popF vazioF fuel current rest q acc = .ok out
  | 0, current, rest, q, acc, hok, hf => by
    rcases hf with hf | ⟨hf, hq, c, rs, rfl, hc⟩
    · omega
    · simp only [List.length_cons] at hf
      omega
  | fuel + 1, current, rest, q, acc, hok, hf => by
    simp only [loop]
    by_cases hg : (rest.isEmpty && vazioF q) = true
    · rw [if_pos hg]
      exact ⟨acc, rfl⟩
    · rw [if_neg hg]
      have hok' : ∀ (q1 : σ) (c : Cliente), c ∈ rest → ∃ q', pushF q1 c = .ok q' :=
        fun q1 c hc => hpush_ok q1 c (hok c hc)
      obtain ⟨q1, rest1, hadm⟩ := admitir_ok hok'
      rw [hadm]
      simp only []
      have hsz : size q1 + rest1.length = size q + rest.length :=
        admitir_size size hpush_size hadm
      have hok1 : ∀ c ∈ rest1, OKC c := fun c hc =>
        hok c ((admitir_suffix hadm).subset hc)
      cases hpop1 : popF q1 with
      | some pr2 =>
        obtain ⟨prox, q2⟩ := pr2
        simp only []
        have hq1 : size q1 = size q2 + 1 := hpop_size q1 prox q2 hpop1
        obtain ⟨q3, rest2, hadm2⟩ :=
          @admitir_ok σ pushF
            (max (saltar current rest (vazioF q)) prox.chegada +
              prox.tempo_servico) q2 rest1
            (fun q4 c hc => hpush_ok q4 c (hok1 c hc))
        rw [hadm2]
        simp only []
        have hsz2 : size q3 + rest2.length = size q2 + rest1.length :=
          admitir_size size hpush_size hadm2
        have hok2 : ∀ c ∈ rest2, OKC c := fun c hc =>
          hok1 c ((admitir_suffix hadm2).subset hc)
        apply loop_total OKC size hpush_ok hpush_size hpop_none hpop_size hvazio
          fuel _ _ _ _ hok2
        rcases hf with hf | ⟨hf, hq, c0, rs0, rfl, hc0⟩
        · left
          omega
        · left
          simp only [List.length_cons] at hf hsz
          omega
      | none =>
        simp only []
        have hq1 : size q1 = 0 := hpop_none q1 hpop1
        cases hrest1 : rest1 with
        | nil => exact ⟨acc, rfl⟩
        | cons c rs =>
          subst hrest1
          rcases hf with hf | ⟨hf, hq, c0, rs0, rfl, hc0⟩
          · -- `continue`: jump to the next arrival, which is then due
            apply loop_total OKC size hpush_ok hpush_size hpop_none hpop_size
              hvazio fuel _ _ _ _ hok1
            right
            exact ⟨by omega, hq1, c, rs, rfl, le_max_right _ _⟩
          · -- the head was already due, so `admitir` admitted it and the
            -- queue cannot be empty: contradicts `popF q1 = none`
            exfalso
            have hle : c0.chegada ≤ saltar current (c0 :: rs0) (vazioF q) := by
              simp only [saltar, hvazio q hq, if_true]
              exact le_max_right _ _
            obtain ⟨q', hq'⟩ := hok' q c0 (List.mem_cons_self c0 rs0)
            simp only [admitir] at hadm
            rw [if_pos hle, hq'] at hadm
            simp only [] at hadm
            have hsz1 : size q1 + (c :: rs).length = size q' + rs0.length :=
              admitir_size size hpush_size hadm
            have hszq' : size q' = size q + 1 := hpush_size q c0 q' hq'
            have hlen : (c :: rs).length ≤ rs0.length :=
              (admitir_suffix hadm).length_le
            omega

end LoopProofs

/-! ## Discipline facts: partitioned FIFO deques -/

section ListaFacts

open List

theorem pushLista_contents {q : Filas} {c : Cliente} {q' : Filas}
    (h : pushLista q c = .ok q') : q'.all ~ c :: q.all := by
  obtain ⟨corp, pref, com⟩ := q
  simp only [pushLista] at h
  split_ifs at h with h1 h2 h3
  · cases h
    simp only [Filas.all, List.append_assoc, List.singleton_append]
    exact List.perm_middle
  · cases h
    simp only [Filas.all, List.append_assoc, List.singleton_append]
    exact (List.Perm.append_left corp List.perm_middle).trans List.perm_middle
  · cases h
    simp only [Filas.all, List.append_assoc]
    calc corp ++ (pref ++ (com ++ [c]))
        ~ corp ++ (pref ++ (c :: com)) :=
          List.Perm.append_left corp
            (List.Perm.append_left pref (List.perm_append_singleton c com))
      _ ~ corp ++ (c :: (pref ++ com)) :=
          List.Perm.append_left corp List.perm_middle
      _ ~ c :: (corp ++ (pref ++ com)) := List.perm_middle

theorem popLista_contents {q : Filas} {c : Cliente} {q' : Filas}
    (h : pop_from_filas_deque q = some (c, q')) : q.all ~ c :: q'.all := by
  obtain ⟨corp, pref, com⟩ := q
  simp only [pop_from_filas_deque] at h
  cases corp with
  | cons c0 rest =>
    obtain ⟨rfl, rfl⟩ : c0 = c ∧ (⟨rest, pref, com⟩ : Filas) = q' := by
      have := Option.some.inj h
      exact ⟨congrArg Prod.fst this, congrArg Prod.snd this⟩
    simp [Filas.all]
  | nil =>
    cases pref with
    | cons c0 rest =>
      obtain ⟨rfl, rfl⟩ : c0 = c ∧ (⟨[], rest, com⟩ : Filas) = q' := by
        have := Option.some.inj h
        exact ⟨congrArg Prod.fst this, congrArg Prod.snd this⟩
      simp [Filas.all]
    | nil =>
      cases com with
      | cons c0 rest =>
        obtain ⟨rfl, rfl⟩ : c0 = c ∧ (⟨[], [], rest⟩ : Filas) = q' := by
          have := Option.some.inj h
          exact ⟨congrArg Prod.fst this, congrArg Prod.snd this⟩
        simp [Filas.all]
      | nil => cases h

theorem popLista_none {q : Filas} (h : pop_from_filas_deque q = none) :
    q.all = [] := by
  obtain ⟨corp, pref, com⟩ := q
  simp only [pop_from_filas_deque] at h
  cases corp with
  | cons c0 rest => cases h
  | nil =>
    cases pref with
    | cons c0 rest => cases h
    | nil =>
      cases com with
      | cons c0 rest => cases h
      | nil => simp [Filas.all]

theorem vazioLista_contents {q : Filas} (h : vazioLista q = true) :
    q.all = [] := by
  obtain ⟨corp, pref, com⟩ := q
  simp only [vazioLista, Bool.and_eq_true, List.isEmpty_iff] at h
  simp [Filas.all, h.1.1, h.1.2, h.2]

theorem vazioLista_of_contents {q : Filas} (h : q.all = []) :
    vazioLista q = true := by
  obtain ⟨corp, pref, com⟩ := q
  simp only [Filas.all, List.append_eq_nil] at h
  simp [vazioLista, h.1.1, h.1.2, h.2]

theorem pushLista_ok {q : Filas} {c : Cliente}
    (h : c.tipo = "corporativo" ∨ c.tipo = "preferencial" ∨ c.tipo = "comum") :
    ∃ q', pushLista q c = .ok q' := by
  rcases h with h | h | h <;> simp [pushLista, h]

theorem pushLista_size {q : Filas} {c : Cliente} {q' : Filas}
    (h : pushLista q c = .ok q') : q'.all.length = q.all.length + 1 := by
  simpa using (pushLista_contents h).length_eq

theorem popLista_size {q : Filas} {c : Cliente} {q' : Filas}
    (h : pop_from_filas_deque q = some (c, q')) :
    q.all.length = q'.all.length + 1 := by
  simpa using (popLista_contents h).length_eq

end ListaFacts

/-! ## Discipline facts: priority heap -/

section HeapFacts

open List

theorem minEntry_mem : ∀ (l : List Entry) (e : Entry), minEntry e l ∈ e :: l
  | [], e => List.mem_singleton.2 rfl
  | g :: l, e => by
    simp only [minEntry]
    have hx := minEntry_mem l (if entLt g e then g else e)
    rcases List.mem_cons.1 hx with h | h
    · rw [h]
      split
      · exact List.mem_cons_of_mem e (List.mem_cons_self g l)
      · exact List.mem_cons_self e (g :: l)
    · exact List.mem_cons_of_mem e (List.mem_cons_of_mem g h)

theorem pushHeap_contents {q : HeapSt} {c : Cliente} {q' : HeapSt}
    (h : pushHeap q c = .ok q') : q'.clientes ~ c :: q.clientes := by
  cases h
  simp [HeapSt.clientes]

theorem popHeap_contents {q : HeapSt} {c : Cliente} {q' : HeapSt}
    (h : popHeap q = some (c, q')) : q.clientes ~ c :: q'.clientes := by
  obtain ⟨entries, counter⟩ := q
  cases entries with
  | nil => cases h
  | cons e rest =>
    simp only [popHeap] at h
    obtain ⟨rfl, rfl⟩ : (minEntry e rest).cliente = c ∧
        (⟨(e :: rest).erase (minEntry e rest), counter⟩ : HeapSt) = q' := by
      have := Option.some.inj h
      exact ⟨congrArg Prod.fst this, congrArg Prod.snd this⟩
    have hm : minEntry e rest ∈ e :: rest := minEntry_mem rest e
    simpa [HeapSt.clientes] using (List.perm_cons_erase hm).map Entry.cliente

theorem popHeap_none {q : HeapSt} (h : popHeap q = none) : q.clientes = [] := by
  obtain ⟨entries, counter⟩ := q
  cases entries with
  | nil => simp [HeapSt.clientes]
  | cons e rest =>
    simp only [popHeap] at h
    exact Option.noConfusion h

theorem vazioHeap_contents {q : HeapSt} (h : vazioHeap q = true) :
    q.clientes = [] := by
  simp only [vazioHeap, List.isEmpty_iff] at h
  simp [HeapSt.clientes, h]

theorem vazioHeap_of_contents {q : HeapSt} (h : q.clientes = []) :
    vazioHeap q = true := by
  simp only [HeapSt.clientes, List.map_eq_nil_iff] at h
  simp [vazioHeap, h]

theorem pushHeap_ok (q : HeapSt) (c : Cliente) :
    ∃ q', pushHeap q c = .ok q' :=
  ⟨_, rfl⟩

theorem pushHeap_size {q : HeapSt} {c : Cliente} {q' : HeapSt}
    (h : pushHeap q c = .ok q') : q'.clientes.length = q.clientes.length + 1 := by
  simpa using (pushHeap_contents h).length_eq

theorem popHeap_size {q : HeapSt} {c : Cliente} {q' : HeapSt}
    (h : popHeap q = some (c, q')) :
    q.clientes.length = q'.clientes.length + 1 := by
  simpa using (popHeap_contents h).length_eq

end HeapFacts

/-! ## Priority behaviour of the two pop operations -/

section PrioridadeFacts

theorem tipo_prioridade_pos (t : String) : 1 ≤ tipo_prioridade t := by
  unfold tipo_prioridade
  split_ifs <;> omega

theorem tipo_prioridade_corporativo : tipo_prioridade "corporativo" = 1 := by
  decide

theorem tipo_prioridade_preferencial : tipo_prioridade "preferencial" = 2 := by
  decide

theorem tipo_prioridade_comum : tipo_prioridade "comum" = 3 := by
  decide

/-- Under the partitioned discipline, the popped customer has minimal rank
among all queued customers. -/
theorem popLista_prioridade {q : Filas} {c : Cliente} {q' : Filas}
    (hwf : Filas.WF q) (h : pop_from_filas_deque q = some (c, q')) :
    ∀ c' ∈ q.all, tipo_prioridade c.tipo ≤ tipo_prioridade c'.tipo := by
  obtain ⟨corp, pref, com⟩ := q
  obtain ⟨hw1, hw2, hw3⟩ := hwf
  simp only [pop_from_filas_deque] at h
  intro c' hc'
  simp only [Filas.all] at hc'
  cases corp with
  | cons c0 rest =>
    have hc0 : c0 = c := congrArg Prod.fst (Option.some.inj h)
    rw [← hc0, hw1 c0 (List.mem_cons_self c0 rest),
      tipo_prioridade_corporativo]
    exact tipo_prioridade_pos _
  | nil =>
    cases pref with
    | cons c0 rest =>
      have hc0 : c0 = c := congrArg Prod.fst (Option.some.inj h)
      rw [← hc0, hw2 c0 (List.mem_cons_self c0 rest),
        tipo_prioridade_preferencial]
      rcases List.mem_append.1 hc' with hc' | hc'
      · rcases List.mem_append.1 hc' with hc' | hc'
        · cases hc'
        · rw [hw2 c' hc', tipo_prioridade_preferencial]
      · rw [hw3 c' hc', tipo_prioridade_comum]
        omega
    | nil =>
      cases com with
      | cons c0 rest =>
        have hc0 : c0 = c := congrArg Prod.fst (Option.some.inj h)
        rw [← hc0, hw3 c0 (List.mem_cons_self c0 rest), tipo_prioridade_comum]
        rcases List.mem_append.1 hc' with hc' | hc'
        · rcases List.mem_append.1 hc' with hc' | hc'
          · cases hc'
          · cases hc'
        · rw [hw3 c' hc', tipo_prioridade_comum]
      | nil => cases h

theorem entLt_prio_le {e f : Entry} (h : entLt e f) : e.prio ≤ f.prio := by
  rcases h with h | ⟨h, _⟩
  · exact le_of_lt h
  · exact le_of_eq h

theorem not_entLt_prio_le {e f : Entry} (h : ¬ entLt f e) : e.prio ≤ f.prio := by
  unfold entLt at h
  push_neg at h
  exact h.1

/-- The selected minimum entry has minimal rank among all entries. -/
theorem minEntry_prio_le : ∀ (l : List Entry) (e : Entry),
    ∀ f ∈ e :: l, (minEntry e l).prio ≤ f.prio
  | [], e, f, hf => by
    rcases List.mem_singleton.1 hf with rfl
    exact le_refl _
  | g :: l, e, f, hf => by
    simp only [minEntry]
    have hxx : (minEntry (if entLt g e then g else e) l).prio ≤
        (if entLt g e then g else e).prio :=
      minEntry_prio_le l _ _ (List.mem_cons_self _ _)
    have hxe : (if entLt g e then g else e).prio ≤ e.prio := by
      split
      · rename_i hge
        exact entLt_prio_le hge
      · exact le_refl _
    have hxg : (if entLt g e then g else e).prio ≤ g.prio := by
      split
      · exact le_refl _
      · rename_i hge
        exact not_entLt_prio_le hge
    rcases List.mem_cons.1 hf with rfl | hf
    · exact le_trans hxx hxe
    rcases List.mem_cons.1 hf with rfl | hf
    · exact le_trans hxx hxg
    · exact minEntry_prio_le l _ _ (List.mem_cons_of_mem _ hf)

/-- Under the heap discipline, the popped customer has minimal rank among
all queued customers. -/
theorem popHeap_prioridade {q : HeapSt} {c : Cliente} {q' : HeapSt}
    (hwf : HeapSt.WF q) (h : popHeap q = some (c, q')) :
    ∀ f ∈ q.entries, tipo_prioridade c.tipo ≤ tipo_prioridade f.cliente.tipo := by
  obtain ⟨entries, counter⟩ := q
  cases entries with
  | nil => cases h
  | cons e0 rest =>
    simp only [popHeap] at h
    have hc : (minEntry e0 rest).cliente = c :=
      congrArg Prod.fst (Option.some.inj h)
    intro f hf
    have hm : minEntry e0 rest ∈ e0 :: rest := minEntry_mem rest e0
    have h1 := hwf _ hm
    have h2 := hwf f hf
    rw [← hc, ← h1, ← h2]
    exact minEntry_prio_le rest e0 f hf

theorem entLt_irrefl (e : Entry) : ¬ entLt e e := by
  unfold entLt
  simp

theorem entLt_trans {a b c : Entry} (h1 : entLt a b) (h2 : entLt b c) :
    entLt a c := by
  unfold entLt at *
  rcases h1 with h1 | ⟨h1, h1'⟩ <;> rcases h2 with h2 | ⟨h2, h2'⟩
  · exact Or.inl (lt_trans h1 h2)
  · exact Or.inl (h2 ▸ h1)
  · exact Or.inl (h1 ▸ h2)
  · refine Or.inr ⟨h1.trans h2, ?_⟩
    rcases h1' with h1' | ⟨h1', h1''⟩ <;> rcases h2' with h2' | ⟨h2', h2''⟩
    · exact Or.inl (lt_trans h1' h2')
    · exact Or.inl (h2' ▸ h1')
    · exact Or.inl (h1' ▸ h2')
    · exact Or.inr ⟨h1'.trans h2', lt_trans h1'' h2''⟩

theorem entLt_asymm {a b : Entry} (h : entLt a b) : ¬ entLt b a := by
  intro h'
  exact entLt_irrefl a (entLt_trans h h')

/-- `minEntry` returns the unique strict minimum when there is one. -/
theorem minEntry_eq_of_min : ∀ (l : List Entry) (e m : Entry),
    m ∈ e :: l → (∀ f ∈ e :: l, f = m ∨ entLt m f) → minEntry e l = m
  | [], e, m, hm, hmin => by
    rcases List.mem_singleton.1 hm with rfl
    rfl
  | g :: l, e, m, hm, hmin => by
    simp only [minEntry]
    have hsub : ∀ f ∈ (if entLt g e then g else e) :: l, f = m ∨ entLt m f := by
      intro f hf
      rcases List.mem_cons.1 hf with rfl | hf
      · split
        · exact hmin g (List.mem_cons_of_mem e (List.mem_cons_self g l))
        · exact hmin e (List.mem_cons_self e (g :: l))
      · exact hmin f (List.mem_cons_of_mem e (List.mem_cons_of_mem g hf))
    have hmem : m ∈ (if entLt g e then g else e) :: l := by
      rcases List.mem_cons.1 hm with he | hm'
      · -- m = e
        by_cases hge : entLt g e
        · rw [if_pos hge]
          rcases hmin g (List.mem_cons_of_mem e (List.mem_cons_self g l)) with
            hg | hlt
          · rw [hg] at *
            exact List.mem_cons_self m l
          · exact absurd hge (entLt_asymm (he ▸ hlt))
        · rw [if_neg hge, he]
          exact List.mem_cons_self e l
      rcases List.mem_cons.1 hm' with hg | hm''
      · -- m = g
        by_cases hge : entLt g e
        · rw [if_pos hge, hg]
          exact List.mem_cons_self g l
        · rw [if_neg hge]
          rcases hmin e (List.mem_cons_self e (g :: l)) with he2 | hlt
          · rw [← he2]
            exact List.mem_cons_self e l
          · exact absurd (hg ▸ hlt) hge
      · exact List.mem_cons_of_mem _ hm''
    exact minEntry_eq_of_min l _ m hmem hsub

end PrioridadeFacts

/-! ## Bisimulation between the two disciplines -/

section BisimFacts

open List

theorem Rel_vazio {q : Filas} {hp : HeapSt} {rest : List Cliente}
    (h : Rel q hp rest) : vazioLista q = vazioHeap hp := by
  obtain ⟨ec, ep, em, hperm, hmc, hmp, hmm, hp1, hp2, hp3, hwf, hpc, hpp, hpm,
    hfut, hsort⟩ := h
  have hlen : q.all.length = hp.clientes.length := by
    calc q.all.length
        = ((ec ++ ep ++ em).map Entry.cliente).length := by
          rw [Filas.all, ← hmc, ← hmp, ← hmm]
          simp
      _ = (ec ++ ep ++ em).length := by simp
      _ = hp.entries.length := hperm.length_eq.symm
      _ = hp.clientes.length := by simp [HeapSt.clientes]
  cases hv1 : vazioLista q <;> cases hv2 : vazioHeap hp
  · rfl
  · have := vazioHeap_contents hv2
    have hall : q.all.length = 0 := by rw [hlen, this]; rfl
    rw [vazioLista_of_contents (List.length_eq_zero.1 hall)] at hv1
    cases hv1
  · have := vazioLista_contents hv1
    have hcl : hp.clientes.length = 0 := by rw [← hlen, this]; rfl
    rw [vazioHeap_of_contents (List.length_eq_zero.1 hcl)] at hv2
    cases hv2
  · rfl

theorem Rel_push {q : Filas} {hp : HeapSt} {c : Cliente} {rest : List Cliente}
    (h : Rel q hp (c :: rest)) (hok : tipoReconhecido c) :
    ∃ q' hp', pushLista q c = .ok q' ∧ pushHeap hp c = .ok hp' ∧
      Rel q' hp' rest := by
  obtain ⟨ec, ep, em, hperm, hmc, hmp, hmm, hp1, hp2, hp3, hwf, hpc, hpp, hpm,
    hfut, hsort⟩ := h
  have hsorthd : ∀ c' ∈ rest, c.chegada ≤ c'.chegada :=
    (List.pairwise_cons.1 hsort).1
  have hsorttl : rest.Pairwise (fun a b => a.chegada ≤ b.chegada) :=
    (List.pairwise_cons.1 hsort).2
  have hfut' : ∀ e ∈ hp.entries, e.chegada ≤ c.chegada := fun e he =>
    hfut e he c (List.mem_cons_self c rest)
  have hwf' : ∀ e ∈ (⟨tipo_prioridade c.tipo, c.chegada, hp.counter, c⟩ : Entry)
      :: hp.entries,
      e.prio = tipo_prioridade e.cliente.tipo ∧
      e.chegada = e.cliente.chegada ∧ e.counter < hp.counter + 1 := by
    intro e he
    rcases List.mem_cons.1 he with rfl | he
    · exact ⟨rfl, rfl, Nat.lt_succ_self _⟩
    · obtain ⟨h1, h2, h3⟩ := hwf e he
      exact ⟨h1, h2, Nat.lt_succ_of_lt h3⟩
  have hfut2 : ∀ e ∈ (⟨tipo_prioridade c.tipo, c.chegada, hp.counter, c⟩ : Entry)
      :: hp.entries, ∀ c' ∈ rest, e.chegada ≤ c'.chegada := by
    intro e he c' hc'
    rcases List.mem_cons.1 he with rfl | he
    · exact hsorthd c' hc'
    · exact hfut e he c' (List.mem_cons_of_mem c hc')
  have hpair : ∀ (l : List Entry), (∀ e ∈ l, e ∈ hp.entries) →
      (∀ e ∈ l, e.prio = tipo_prioridade c.tipo) → l.Pairwise entLt →
      (l ++ [(⟨tipo_prioridade c.tipo, c.chegada, hp.counter, c⟩ : Entry)]).Pairwise
        entLt := by
    intro l hsub hprio hl
    rw [List.pairwise_append]
    refine ⟨hl, List.pairwise_singleton _ _, ?_⟩
    intro e he f hf
    rcases List.mem_singleton.1 hf with rfl
    obtain ⟨_, _, hcnt⟩ := hwf e (hsub e he)
    have hch : e.chegada ≤ c.chegada := hfut' e (hsub e he)
    unfold entLt
    rcases lt_or_eq_of_le hch with hlt | heq
    · exact Or.inr ⟨hprio e he, Or.inl hlt⟩
    · exact Or.inr ⟨hprio e he, Or.inr ⟨heq, hcnt⟩⟩
  have hmemec : ∀ e ∈ ec, e ∈ hp.entries := fun e he =>
    hperm.mem_iff.2 (List.mem_append.2 (Or.inl (List.mem_append.2 (Or.inl he))))
  have hmemep : ∀ e ∈ ep, e ∈ hp.entries := fun e he =>
    hperm.mem_iff.2 (List.mem_append.2 (Or.inl (List.mem_append.2 (Or.inr he))))
  have hmemem : ∀ e ∈ em, e ∈ hp.entries := fun e he =>
    hperm.mem_iff.2 (List.mem_append.2 (Or.inr he))
  have hperm2 : List.Perm hp.entries (ec ++ (ep ++ em)) := by
    simpa [List.append_assoc] using hperm
  rcases hok with hct | hct | hct
  · refine ⟨{ q with corporativo := q.corporativo ++ [c] },
      (⟨⟨tipo_prioridade c.tipo, c.chegada, hp.counter, c⟩ :: hp.entries,
        hp.counter + 1⟩ : HeapSt), by simp [pushLista, hct], rfl, ?_⟩
    refine ⟨ec ++ [⟨tipo_prioridade c.tipo, c.chegada, hp.counter, c⟩], ep, em,
      ?_, ?_, hmp, hmm, ?_, hp2, hp3, hwf', ?_, hpp, hpm, hfut2, hsorttl⟩
    · have hshape : (ec ++ [(⟨tipo_prioridade c.tipo, c.chegada, hp.counter, c⟩
          : Entry)]) ++ ep ++ em =
          ec ++ ((⟨tipo_prioridade c.tipo, c.chegada, hp.counter, c⟩ : Entry)
            :: (ep ++ em)) := by
        simp
      rw [hshape]
      exact (hperm2.cons _).trans List.perm_middle.symm
    · simp [← hmc]
    · intro e he
      rcases List.mem_append.1 he with he | he
      · exact hp1 e he
      · rcases List.mem_singleton.1 he with rfl
        simp [hct, tipo_prioridade_corporativo]
    · exact hpair ec hmemec (fun e he => by
        rw [hp1 e he, hct, tipo_prioridade_corporativo]) hpc
  · refine ⟨{ q with preferencial := q.preferencial ++ [c] },
      (⟨⟨tipo_prioridade c.tipo, c.chegada, hp.counter, c⟩ :: hp.entries,
        hp.counter + 1⟩ : HeapSt), by simp [pushLista, hct], rfl, ?_⟩
    refine ⟨ec, ep ++ [⟨tipo_prioridade c.tipo, c.chegada, hp.counter, c⟩], em,
      ?_, hmc, ?_, hmm, hp1, ?_, hp3, hwf', hpc, ?_, hpm, hfut2, hsorttl⟩
    · have hshape : ec ++ (ep ++ [(⟨tipo_prioridade c.tipo, c.chegada,
          hp.counter, c⟩ : Entry)]) ++ em =
          ec ++ (ep ++ ((⟨tipo_prioridade c.tipo, c.chegada, hp.counter, c⟩
            : Entry) :: em)) := by
        simp
      rw [hshape]
      refine (hperm2.cons _).trans ?_
      calc (⟨tipo_prioridade c.tipo, c.chegada, hp.counter, c⟩ : Entry)
            :: (ec ++ (ep ++ em))
          ~ ec ++ ((⟨tipo_prioridade c.tipo, c.chegada, hp.counter, c⟩ : Entry)
              :: (ep ++ em)) := List.perm_middle.symm
        _ ~ ec ++ (ep ++ ((⟨tipo_prioridade c.tipo, c.chegada, hp.counter, c⟩
              : Entry) :: em)) :=
            List.Perm.append_left ec List.perm_middle.symm
    · simp [← hmp]
    · intro e he
      rcases List.mem_append.1 he with he | he
      · exact hp2 e he
      · rcases List.mem_singleton.1 he with rfl
        simp [hct, tipo_prioridade_preferencial]
    · exact hpair ep hmemep (fun e he => by
        rw [hp2 e he, hct, tipo_prioridade_preferencial]) hpp
  · refine ⟨{ q with comum := q.comum ++ [c] },
      (⟨⟨tipo_prioridade c.tipo, c.chegada, hp.counter, c⟩ :: hp.entries,
        hp.counter + 1⟩ : HeapSt), by simp [pushLista, hct], rfl, ?_⟩
    refine ⟨ec, ep, em ++ [⟨tipo_prioridade c.tipo, c.chegada, hp.counter, c⟩],
      ?_, hmc, hmp, ?_, hp1, hp2, ?_, hwf', hpc, hpp, ?_, hfut2, hsorttl⟩
    · have hshape : ec ++ ep ++ (em ++ [(⟨tipo_prioridade c.tipo, c.chegada,
          hp.counter, c⟩ : Entry)]) =
          ec ++ (ep ++ (em ++ [(⟨tipo_prioridade c.tipo, c.chegada, hp.counter,
            c⟩ : Entry)])) := by
        simp
      rw [hshape]
      refine (hperm2.cons _).trans ?_
      calc (⟨tipo_prioridade c.tipo, c.chegada, hp.counter, c⟩ : Entry)
            :: (ec ++ (ep ++ em))
          ~ ec ++ ((⟨tipo_prioridade c.tipo, c.chegada, hp.counter, c⟩ : Entry)
              :: (ep ++ em)) := List.perm_middle.symm
        _ ~ ec ++ (ep ++ ((⟨tipo_prioridade c.tipo, c.chegada, hp.counter, c⟩
              : Entry) :: em)) :=
            List.Perm.append_left ec List.perm_middle.symm
        _ ~ ec ++ (ep ++ (em ++ [(⟨tipo_prioridade c.tipo, c.chegada,
              hp.counter, c⟩ : Entry)])) :=
            List.Perm.append_left ec (List.Perm.append_left ep
              (List.perm_append_singleton _ em).symm)
    · simp [← hmm]
    · intro e he
      rcases List.mem_append.1 he with he | he
      · exact hp3 e he
      · rcases List.mem_singleton.1 he with rfl
        simp [hct, tipo_prioridade_comum]
    · exact hpair em hmemem (fun e he => by
        rw [hp3 e he, hct, tipo_prioridade_comum]) hpm

/-- The two pops agree on related states: both report empty, or both
return the same customer with related remainders. -/
theorem Rel_pop {q : Filas} {hp : HeapSt} {rest : List Cliente}
    (h : Rel q hp rest) :
    (pop_from_filas_deque q = none ∧ popHeap hp = none) ∨
    (∃ c q' hp', pop_from_filas_deque q = some (c, q') ∧
      popHeap hp = some (c, hp') ∧ Rel q' hp' rest) := by
  obtain ⟨corp, pref, com⟩ := q
  obtain ⟨entries, counter⟩ := hp
  obtain ⟨ec, ep, em, hperm, hmc, hmp, hmm, hp1, hp2, hp3, hwf, hpc, hpp, hpm,
    hfut, hsort⟩ := h
  simp only [] at hperm hmc hmp hmm hwf hfut
  cases hec : ec with
  | cons m ec' =>
    subst hec
    -- the corporativo bucket is non-empty: its front is the minimum
    right
    have hmin : ∀ f ∈ entries, f = m ∨ entLt m f := by
      intro f hf
      have hf' := hperm.subset hf
      rcases List.mem_append.1 hf' with hf' | hf'
      · rcases List.mem_append.1 hf' with hf' | hf'
        · rcases List.mem_cons.1 hf' with hfm | hf'
          · exact Or.inl hfm
          · exact Or.inr ((List.pairwise_cons.1 hpc).1 f hf')
        · refine Or.inr (Or.inl ?_)
          rw [hp1 m (List.mem_cons_self m ec'), hp2 f hf']
          omega
      · refine Or.inr (Or.inl ?_)
        rw [hp1 m (List.mem_cons_self m ec'), hp3 f hf']
        omega
    have hmem : m ∈ entries := hperm.mem_iff.2
      (List.mem_append.2 (Or.inl (List.mem_append.2 (Or.inl
        (List.mem_cons_self m ec')))))
    cases hent : entries with
    | nil => rw [hent] at hmem; cases hmem
    | cons e0 t =>
      subst hent
      have hminEq : minEntry e0 t = m :=
        minEntry_eq_of_min t e0 m hmem hmin
      have hperm' : List.Perm ((e0 :: t).erase m) (ec' ++ ep ++ em) := by
        have h1 : List.Perm (e0 :: t) (m :: (ec' ++ ep ++ em)) := hperm
        have := h1.erase m
        rwa [List.erase_cons_head] at this
      refine ⟨m.cliente, ⟨ec'.map Entry.cliente, pref, com⟩,
        ⟨(e0 :: t).erase m, counter⟩, ?_, ?_, ?_⟩
      · rw [← hmc]
        simp [pop_from_filas_deque]
      · simp only [popHeap, hminEq]
      · refine ⟨ec', ep, em, hperm', rfl, hmp, hmm,
          fun e he => hp1 e (List.mem_cons_of_mem m he), hp2, hp3, ?_,
          (List.pairwise_cons.1 hpc).2, hpp, hpm, ?_, hsort⟩
        · intro e he
          exact hwf e (List.mem_of_mem_erase he)
        · intro e he c hc
          exact hfut e (List.mem_of_mem_erase he) c hc
  | nil =>
  subst hec
  cases hep : ep with
  | cons m ep' =>
    subst hep
    right
    have hmin : ∀ f ∈ entries, f = m ∨ entLt m f := by
      intro f hf
      have hf' := hperm.subset hf
      rcases List.mem_append.1 hf' with hf' | hf'
      · rcases List.mem_append.1 hf' with hf' | hf'
        · cases hf'
        · rcases List.mem_cons.1 hf' with hfm | hf'
          · exact Or.inl hfm
          · exact Or.inr ((List.pairwise_cons.1 hpp).1 f hf')
      · refine Or.inr (Or.inl ?_)
        rw [hp2 m (List.mem_cons_self m ep'), hp3 f hf']
        omega
    have hmem : m ∈ entries := hperm.mem_iff.2
      (List.mem_append.2 (Or.inl (List.mem_append.2 (Or.inr
        (List.mem_cons_self m ep')))))
    cases hent : entries with
    | nil => rw [hent] at hmem; cases hmem
    | cons e0 t =>
      subst hent
      have hminEq : minEntry e0 t = m :=
        minEntry_eq_of_min t e0 m hmem hmin
      have hperm' : List.Perm ((e0 :: t).erase m) (ep' ++ em) := by
        have h1 : List.Perm (e0 :: t) (m :: (ep' ++ em)) := by
          simpa using hperm
        have := h1.erase m
        rwa [List.erase_cons_head] at this
      have hcorp : corp = [] := by rw [← hmc]; rfl
      refine ⟨m.cliente, ⟨corp, ep'.map Entry.cliente, com⟩,
        ⟨(e0 :: t).erase m, counter⟩, ?_, ?_, ?_⟩
      · rw [← hmp, hcorp]
        simp [pop_from_filas_deque]
      · simp only [popHeap, hminEq]
      · refine ⟨[], ep', em, by simpa using hperm', by simp [hcorp], rfl, hmm,
          by simp, fun e he => hp2 e (List.mem_cons_of_mem m he), hp3, ?_,
          by simp, (List.pairwise_cons.1 hpp).2, hpm, ?_, hsort⟩
        · intro e he
          exact hwf e (List.mem_of_mem_erase he)
        · intro e he c hc
          exact hfut e (List.mem_of_mem_erase he) c hc
  | nil =>
  subst hep
  cases hem : em with
  | cons m em' =>
    subst hem
    right
    have hmin : ∀ f ∈ entries, f = m ∨ entLt m f := by
      intro f hf
      have hf' := hperm.subset hf
      rcases List.mem_append.1 hf' with hf' | hf'
      · rcases List.mem_append.1 hf' with hf' | hf'
        · cases hf'
        · cases hf'
      · rcases List.mem_cons.1 hf' with hfm | hf'
        · exact Or.inl hfm
        · exact Or.inr ((List.pairwise_cons.1 hpm).1 f hf')
    have hmem : m ∈ entries := hperm.mem_iff.2
      (List.mem_append.2 (Or.inr (List.mem_cons_self m em')))
    cases hent : entries with
    | nil => rw [hent] at hmem; cases hmem
    | cons e0 t =>
      subst hent
      have hminEq : minEntry e0 t = m :=
        minEntry_eq_of_min t e0 m hmem hmin
      have hperm' : List.Perm ((e0 :: t).erase m) em' := by
        have h1 : List.Perm (e0 :: t) (m :: em') := by
          simpa using hperm
        have := h1.erase m
        rwa [List.erase_cons_head] at this
      have hcorp : corp = [] := by rw [← hmc]; rfl
      have hpref : pref = [] := by rw [← hmp]; rfl
      refine ⟨m.cliente, ⟨corp, pref, em'.map Entry.cliente⟩,
        ⟨(e0 :: t).erase m, counter⟩, ?_, ?_, ?_⟩
      · rw [← hmm, hcorp, hpref]
        simp [pop_from_filas_deque]
      · simp only [popHeap, hminEq]
      · refine ⟨[], [], em', by simpa using hperm', by simp [hcorp],
          by simp [hpref], rfl, by simp, by simp,
          fun e he => hp3 e (List.mem_cons_of_mem m he), ?_,
          by simp, by simp, (List.pairwise_cons.1 hpm).2, ?_, hsort⟩
        · intro e he
          exact hwf e (List.mem_of_mem_erase he)
        · intro e he c hc
          exact hfut e (List.mem_of_mem_erase he) c hc
  | nil =>
  subst hem
  left
  have hentnil : entries = [] := by
    have : List.Perm entries ([] : List Entry) := by simpa using hperm
    exact this.eq_nil
  have hcorp : corp = [] := by rw [← hmc]; rfl
  have hpref : pref = [] := by rw [← hmp]; rfl
  have hcom : com = [] := by rw [← hmm]; rfl
  subst hentnil hcorp hpref hcom
  exact ⟨rfl, rfl⟩

/-- `admitir` keeps the two disciplines in lockstep on related states. -/
theorem Rel_admitir {current : ℚ} : ∀ {q : Filas} {hp : HeapSt}
    {rest : List Cliente}, Rel q hp rest → (∀ c ∈ rest, tipoReconhecido c) →
    ∃ q' hp' rest', admitir pushLista current q rest = .ok (q', rest') ∧
      admitir pushHeap current hp rest = .ok (hp', rest') ∧ Rel q' hp' rest'
  | q, hp, [], h, hok => ⟨q, hp, [], rfl, rfl, h⟩
  | q, hp, c :: rs, h, hok => by
    simp only [admitir]
    by_cases hc : c.chegada ≤ current
    · simp only [if_pos hc]
      obtain ⟨q1, hp1, hpl, hph, h1⟩ :=
        Rel_push h (hok c (List.mem_cons_self c rs))
      rw [hpl, hph]
      simp only []
      exact Rel_admitir h1 (fun c' hc' => hok c' (List.mem_cons_of_mem c hc'))
    · simp only [if_neg hc]
      exact ⟨q, hp, c :: rs, rfl, rfl, h⟩

/-- The event loop is insensitive to the discipline on related states:
both disciplines produce identical results (served lists and timestamps)
step for step. -/
theorem loop_rel : ∀ (fuel : Nat) (current : ℚ) (rest : List Cliente)
    (q : Filas) (hp : HeapSt) (acc : List Atendido),
    Rel q hp rest → (∀ c ∈ rest, tipoReconhecido c) →
    loop pushLista pop_from_filas_deque vazioLista fuel current rest q acc =
    loop pushHeap popHeap vazioHeap fuel current rest hp acc
  | 0, _, _, _, _, _, _, _ => rfl
  | fuel + 1, current, rest, q, hp, acc, h, hok => by
    have hv := Rel_vazio h
    simp only [loop]
    rw [← hv]
    by_cases hg : (rest.isEmpty && vazioLista q) = true
    · rw [if_pos hg, if_pos hg]
    · rw [if_neg hg, if_neg hg]
      obtain ⟨q1, hp1, rest1, hadml, hadmh, h1⟩ := Rel_admitir h hok
      rw [hadml, hadmh]
      simp only []
      have hok1 : ∀ c ∈ rest1, tipoReconhecido c := fun c hc =>
        hok c ((admitir_suffix hadml).subset hc)
      rcases Rel_pop h1 with ⟨hpl, hph⟩ | ⟨c, q2, hp2, hpl, hph, h2⟩
      · rw [hpl, hph]
        simp only []
        cases rest1 with
        | nil => rfl
        | cons c rs => exact loop_rel fuel _ _ _ _ _ h1 hok1
      · rw [hpl, hph]
        simp only []
        obtain ⟨q3, hp3, rest2, hadml2, hadmh2, h3⟩ := Rel_admitir h2 hok1
        rw [hadml2, hadmh2]
        simp only []
        exact loop_rel fuel _ _ _ _ _ h3
          (fun c' hc' => hok1 c' ((admitir_suffix hadml2).subset hc'))

/-- The empty states are related for any sorted pending list. -/
theorem Rel_empty {rest : List Cliente}
    (hsort : rest.Pairwise (fun a b => a.chegada ≤ b.chegada)) :
    Rel Filas.empty HeapSt.empty rest := by
  refine ⟨[], [], [], by simp [HeapSt.empty], rfl, rfl, rfl, by simp, by simp,
    by simp, by simp [HeapSt.empty], by simp, by simp, by simp,
    by simp [HeapSt.empty], hsort⟩

end BisimFacts

/-! ## `simular`-level lemmas -/

section SimularFacts

open List

theorem chegadasDe_perm (clientes : List Cliente) (alg : String) :
    chegadasDe clientes alg ~ clientes := by
  unfold chegadasDe
  split
  · exact merge_sort_perm _ _
  · exact quick_sort_perm _ _

theorem chegadasDe_sorted (clientes : List Cliente) (alg : String) :
    (chegadasDe clientes alg).Pairwise (fun a b => a.chegada ≤ b.chegada) := by
  unfold chegadasDe
  split
  · exact merge_sort_sorted _ _
  · exact quick_sort_sorted _ _

theorem simular_run_lista (clientes : List Cliente) (estrutura alg : String)
    (h : estrutura = "lista") :
    simular clientes estrutura alg =
      (loop pushLista pop_from_filas_deque vazioLista
        (2 * (chegadasDe clientes alg).length + 1) 0 (chegadasDe clientes alg)
        Filas.empty []).map
          fun atendidos => (mkStats atendidos estrutura alg, atendidos) := by
  subst h
  rw [simular]
  simp

theorem simular_run_prioridade (clientes : List Cliente) (estrutura alg : String)
    (h : ¬ estrutura = "lista") :
    simular clientes estrutura alg =
      (loop pushHeap popHeap vazioHeap
        (2 * (chegadasDe clientes alg).length + 1) 0 (chegadasDe clientes alg)
        HeapSt.empty []).map
          fun atendidos => (mkStats atendidos estrutura alg, atendidos) := by
  rw [simular]
  simp only [if_neg h]

/-- If `simular` returned normally, the served list is what the loop
produced (and the statistics are computed from it). -/
theorem simular_ok_run {clientes : List Cliente} {estrutura alg : String}
    {stats : Stats} {atendidos : List Atendido}
    (h : simular clientes estrutura alg = .ok (stats, atendidos)) :
    stats = mkStats atendidos estrutura alg ∧
    ((estrutura = "lista" ∧
        loop pushLista pop_from_filas_deque vazioLista
          (2 * (chegadasDe clientes alg).length + 1) 0 (chegadasDe clientes alg)
          Filas.empty [] = .ok atendidos) ∨
      (¬ estrutura = "lista" ∧
        loop pushHeap popHeap vazioHeap
          (2 * (chegadasDe clientes alg).length + 1) 0 (chegadasDe clientes alg)
          HeapSt.empty [] = .ok atendidos)) := by
  by_cases he : estrutura = "lista"
  · rw [simular_run_lista clientes estrutura alg he] at h
    cases hrun : loop pushLista pop_from_filas_deque vazioLista
        (2 * (chegadasDe clientes alg).length + 1) 0 (chegadasDe clientes alg)
        Filas.empty [] with
    | error e => rw [hrun] at h; cases h
    | ok out =>
      rw [hrun] at h
      simp only [Except.map] at h
      obtain ⟨h1, h2⟩ : mkStats out estrutura alg = stats ∧ out = atendidos := by
        have := Except.ok.inj h
        exact ⟨congrArg Prod.fst this, congrArg Prod.snd this⟩
      subst h2
      exact ⟨h1.symm, Or.inl ⟨he, rfl⟩⟩
  · rw [simular_run_prioridade clientes estrutura alg he] at h
    cases hrun : loop pushHeap popHeap vazioHeap
        (2 * (chegadasDe clientes alg).length + 1) 0 (chegadasDe clientes alg)
        HeapSt.empty [] with
    | error e => rw [hrun] at h; cases h
    | ok out =>
      rw [hrun] at h
      simp only [Except.map] at h
      obtain ⟨h1, h2⟩ : mkStats out estrutura alg = stats ∧ out = atendidos := by
        have := Except.ok.inj h
        exact ⟨congrArg Prod.fst this, congrArg Prod.snd this⟩
      subst h2
      exact ⟨h1.symm, Or.inr ⟨he, rfl⟩⟩

/-- Timestamp invariant at the `simular` level, for any discipline and
sort strings. -/
theorem simular_timestamps {clientes : List Cliente} {estrutura alg : String}
    {stats : Stats} {atendidos : List Atendido}
    (h : simular clientes estrutura alg = .ok (stats, atendidos)) :
    ∀ a ∈ atendidos, a.cliente.chegada ≤ a.inicio ∧
      a.termino = a.inicio + a.cliente.tempo_servico := by
  rcases (simular_ok_run h).2 with ⟨_, hrun⟩ | ⟨_, hrun⟩
  · exact loop_timestamps _ _ _ _ _ _ hrun (by simp)
  · exact loop_timestamps _ _ _ _ _ _ hrun (by simp)

/-- Conservation at the `simular` level: a normal run serves exactly the
input customers. -/
theorem simular_conservacao {clientes : List Cliente} {estrutura alg : String}
    {stats : Stats} {atendidos : List Atendido}
    (h : simular clientes estrutura alg = .ok (stats, atendidos)) :
    atendidos.map Atendido.cliente ~ clientes := by
  rcases (simular_ok_run h).2 with ⟨_, hrun⟩ | ⟨_, hrun⟩
  · have := loop_contents Filas.all (fun q c q' => pushLista_contents)
      (fun q c q' => popLista_contents) (fun q => popLista_none)
      (fun q => vazioLista_contents) _ _ _ _ _ _ hrun
    simp only [List.map_nil, List.nil_append, Filas.empty, Filas.all,
      List.append_nil] at this
    exact this.trans (chegadasDe_perm clientes alg)
  · have := loop_contents HeapSt.clientes (fun q c q' => pushHeap_contents)
      (fun q c q' => popHeap_contents) (fun q => popHeap_none)
      (fun q => vazioHeap_contents) _ _ _ _ _ _ hrun
    simp only [List.map_nil, List.nil_append, HeapSt.empty, HeapSt.clientes,
      List.append_nil] at this
    exact this.trans (chegadasDe_perm clientes alg)

/-- Totality at the `simular` level: on recognized categories every run
returns normally (the heap discipline would not even need the
hypothesis). -/
theorem simular_total {clientes : List Cliente}
    (hok : ∀ c ∈ clientes, tipoReconhecido c) (estrutura alg : String) :
    ∃ stats atendidos,
      simular clientes estrutura alg = .ok (stats, atendidos) := by
  have hokc : ∀ c ∈ chegadasDe clientes alg, tipoReconhecido c := fun c hc =>
    hok c ((chegadasDe_perm clientes alg).subset hc)
  by_cases he : estrutura = "lista"
  · obtain ⟨out, hout⟩ := loop_total tipoReconhecido
      (fun q : Filas => q.all.length)
      (fun q c hc => pushLista_ok hc)
      (fun q c q' hp => pushLista_size hp)
      (fun q hp => by simp [popLista_none hp])
      (fun q c q' hp => popLista_size hp)
      (fun q hp => vazioLista_of_contents (List.length_eq_zero.1 hp))
      (2 * (chegadasDe clientes alg).length + 1) 0 (chegadasDe clientes alg)
      Filas.empty [] hokc (by left; simp [Filas.empty, Filas.all])
    refine ⟨mkStats out estrutura alg, out, ?_⟩
    rw [simular_run_lista clientes estrutura alg he, hout]
    rfl
  · obtain ⟨out, hout⟩ := loop_total (fun _ => True)
      (fun q : HeapSt => q.clientes.length)
      (fun q c hc => pushHeap_ok q c)
      (fun q c q' hp => pushHeap_size hp)
      (fun q hp => by simp [popHeap_none hp])
      (fun q c q' hp => popHeap_size hp)
      (fun q hp => vazioHeap_of_contents (List.length_eq_zero.1 hp))
      (2 * (chegadasDe clientes alg).length + 1) 0 (chegadasDe clientes alg)
      HeapSt.empty [] (fun c hc => trivial)
      (by left; simp [HeapSt.empty, HeapSt.clientes])
    refine ⟨mkStats out estrutura alg, out, ?_⟩
    rw [simular_run_prioridade clientes estrutura alg he, hout]
    rfl

/-- Discipline equivalence: on recognized categories, the deque and heap
runs serve the same customers with the same timestamps. -/
theorem simular_equiv {clientes : List Cliente}
    (hok : ∀ c ∈ clientes, tipoReconhecido c) (alg : String) :
    ∃ atendidos,
      simular clientes "lista" alg =
        .ok (mkStats atendidos "lista" alg, atendidos) ∧
      simular clientes "prioridade" alg =
        .ok (mkStats atendidos "prioridade" alg, atendidos) := by
  have hokc : ∀ c ∈ chegadasDe clientes alg, tipoReconhecido c := fun c hc =>
    hok c ((chegadasDe_perm clientes alg).subset hc)
  have hrun : loop pushLista pop_from_filas_deque vazioLista
      (2 * (chegadasDe clientes alg).length + 1) 0 (chegadasDe clientes alg)
      Filas.empty [] =
      loop pushHeap popHeap vazioHeap
      (2 * (chegadasDe clientes alg).length + 1) 0 (chegadasDe clientes alg)
      HeapSt.empty [] :=
    loop_rel _ _ _ _ _ _ (Rel_empty (chegadasDe_sorted clientes alg)) hokc
  obtain ⟨stats, out, hout⟩ := simular_total hok "lista" alg
  obtain ⟨hstats, hcase⟩ := simular_ok_run hout
  rcases hcase with ⟨_, hloop⟩ | ⟨hne, _⟩
  · refine ⟨out, hstats ▸ hout, ?_⟩
    rw [simular_run_prioridade clientes "prioridade" alg (by decide),
      ← hrun, hloop]
    rfl
  · exact absurd rfl hne

end SimularFacts

/-! ## Claims -/

section Claims

open List

/-- Claim C4: for every input sequence and every key function, both
`merge_sort` and `quick_sort` return a sequence sorted ascending by the
key and a permutation of the input; and for `merge_sort`, elements with
equal keys retain their original relative order (stability, stated as
preservation of every equal-key fibre). -/
theorem claim_C4_ordenacao {α κ : Type _} [LinearOrder κ] (key : α → κ)
    (l : List α) :
    (merge_sort key l).Pairwise (fun a b => key a ≤ key b) ∧
    merge_sort key l ~ l ∧
    (quick_sort key l).Pairwise (fun a b => key a ≤ key b) ∧
    quick_sort key l ~ l ∧
    ∀ k : κ, (merge_sort key l).filter (fun a => key a = k) =
      l.filter (fun a => key a = k) :=
  ⟨merge_sort_sorted key l, merge_sort_perm key l, quick_sort_sorted key l,
    quick_sort_perm key l, fun k => merge_sort_filter key k l⟩

/-- Claim C5 counterexample: the claim asserts that some input and key
make `quick_sort` reorder equal-key elements; no such input exists (shown
here at the representative instance of pairs keyed by their first
component). -/
theorem claim_C5_contraexemplo :
    ¬ ∃ (l : List (Nat × Nat)) (k : Nat),
      (quick_sort Prod.fst l).filter (fun a => a.1 = k) ≠
        l.filter (fun a => a.1 = k) := by
  rintro ⟨l, k, hne⟩
  exact hne (quick_sort_filter Prod.fst k l)

/-- Claim C5 (amended): the filter-based `quick_sort` of this program is
stable — for every input, key function and key value, the equal-key fibre
of the output equals that of the input, so equal-key elements keep their
original relative order. -/
theorem claim_C5_quick_sort_estavel {α κ : Type _} [LinearOrder κ]
    (key : α → κ) (l : List α) (k : κ) :
    (quick_sort key l).filter (fun a => key a = k) =
      l.filter (fun a => key a = k) :=
  quick_sort_filter key k l

unseal Rat.add Rat.mul Rat.inv Rat.sub in
/-- Claim C1: on input [A(comum, dur 5, arr 0), B(corporativo, dur 3,
arr 1), C(preferencial, dur 2, arr 1)] under the Partitioned-FIFO
discipline, A is served first (0..5, wait 0), then B (5..8, wait 4), then
C (8..10, wait 7); the statistics are count 3, total wait 11, mean wait
11/3, total service 10. -/
theorem claim_C1_cenario_concreto :
    simular [clienteA, clienteB, clienteC] "lista" "merge" =
      .ok (⟨3, 11, 11 / 3, 10, "lista", "merge"⟩,
        [⟨clienteA, 0, 5⟩, ⟨clienteB, 5, 8⟩, ⟨clienteC, 8, 10⟩]) ∧
    List.map Atendido.espera
        [⟨clienteA, 0, 5⟩, ⟨clienteB, 5, 8⟩, (⟨clienteC, 8, 10⟩ : Atendido)] =
      [0, 4, 7] := by
  have hs : chegadasDe [clienteA, clienteB, clienteC] "merge" =
      [clienteA, clienteB, clienteC] := by
    norm_num [chegadasDe, merge_sort, merge_sortF, merge_runs, clienteA,
      clienteB, clienteC]
  constructor
  · simp only [simular, hs, if_pos]
    decide
  · decide

/-- Claim C2: in every run that returns (any discipline string, any sort
string), every served customer satisfies `inicio_atendimento ≥ chegada`
and `termino_atendimento = inicio_atendimento + tempo_servico` exactly. -/
theorem claim_C2_invariante_timestamps (clientes : List Cliente)
    (estrutura alg : String) (stats : Stats) (atendidos : List Atendido)
    (h : simular clientes estrutura alg = .ok (stats, atendidos)) :
    ∀ a ∈ atendidos, a.cliente.chegada ≤ a.inicio ∧
      a.termino = a.inicio + a.cliente.tempo_servico :=
  simular_timestamps h

unseal Rat.add Rat.mul Rat.inv Rat.sub in
/-- Witness for C2 at a concrete one-customer run. -/
theorem claim_C2_witness :
    (⟨clienteA, 0, 5⟩ : Atendido).cliente.chegada ≤
        (⟨clienteA, 0, 5⟩ : Atendido).inicio ∧
      (⟨clienteA, 0, 5⟩ : Atendido).termino =
        (⟨clienteA, 0, 5⟩ : Atendido).inicio +
          (⟨clienteA, 0, 5⟩ : Atendido).cliente.tempo_servico := by
  have hs : chegadasDe [clienteA] "merge" = [clienteA] := by
    norm_num [chegadasDe, merge_sort, merge_sortF]
  have hsim : simular [clienteA] "lista" "merge" =
      .ok (⟨1, 0, 0, 5, "lista", "merge"⟩, [⟨clienteA, 0, 5⟩]) := by
    simp only [simular, hs, if_pos]
    decide
  exact claim_C2_invariante_timestamps [clienteA] "lista" "merge" _ _ hsim
    ⟨clienteA, 0, 5⟩ (by simp)

/-- Claim C3: for every input of recognized categories and every
discipline/sort strings, the run returns and the served output is a
permutation of the input (no customer lost or duplicated). -/
theorem claim_C3_conservacao (clientes : List Cliente)
    (estrutura alg : String)
    (hok : ∀ c ∈ clientes, tipoReconhecido c) :
    ∃ stats atendidos,
      simular clientes estrutura alg = .ok (stats, atendidos) ∧
      atendidos.map Atendido.cliente ~ clientes := by
  obtain ⟨stats, atendidos, h⟩ := simular_total hok estrutura alg
  exact ⟨stats, atendidos, h, simular_conservacao h⟩

/-- Witness for C3 at the concrete three-customer input. -/
theorem claim_C3_witness :
    ∃ stats atendidos,
      simular [clienteA, clienteB, clienteC] "lista" "merge" =
        .ok (stats, atendidos) ∧
      atendidos.map Atendido.cliente ~ [clienteA, clienteB, clienteC] :=
  claim_C3_conservacao [clienteA, clienteB, clienteC] "lista" "merge"
    (by decide)

/-- Claim C6: under both disciplines, pop never dispatches a lower-rank
customer while a higher-rank one is queued: on any well-formed state, the
popped customer's rank is minimal among all queued customers, regardless
of arrival order. -/
theorem claim_C6_precedencia :
    (∀ (q : Filas) (c : Cliente) (q' : Filas), Filas.WF q →
      pop_from_filas_deque q = some (c, q') →
      ∀ c' ∈ q.all, tipo_prioridade c.tipo ≤ tipo_prioridade c'.tipo) ∧
    (∀ (hp : HeapSt) (c : Cliente) (hp' : HeapSt), HeapSt.WF hp →
      popHeap hp = some (c, hp') →
      ∀ f ∈ hp.entries,
        tipo_prioridade c.tipo ≤ tipo_prioridade f.cliente.tipo) :=
  ⟨fun q c q' hwf h => popLista_prioridade hwf h,
    fun hp c hp' hwf h => popHeap_prioridade hwf h⟩

/-- Witness for C6: with corporate B and regular A both queued, the pop
returns B (rank 1 ≤ rank 3 of A), although A arrived earlier. -/
theorem claim_C6_witness :
    tipo_prioridade clienteB.tipo ≤ tipo_prioridade clienteA.tipo :=
  claim_C6_precedencia.1 ⟨[clienteB], [], [clienteA]⟩ clienteB
    ⟨[], [], [clienteA]⟩ (by decide) (by decide) clienteA (by decide)

/-- Claim C7: when no two same-category customers share an arrival time
and all categories are recognized, the Partitioned-FIFO and the
Priority-Structure runs (same sort) return the same served sequence with
the same timestamps. -/
theorem claim_C7_equivalencia (clientes : List Cliente) (alg : String)
    (hok : ∀ c ∈ clientes, tipoReconhecido c)
    (hdist : ∀ c ∈ clientes, ∀ c' ∈ clientes, c ≠ c' → c.tipo = c'.tipo →
      c.chegada ≠ c'.chegada) :
    ∃ s1 s2 atendidos,
      simular clientes "lista" alg = .ok (s1, atendidos) ∧
      simular clientes "prioridade" alg = .ok (s2, atendidos) := by
  obtain ⟨atendidos, h1, h2⟩ := simular_equiv hok alg
  exact ⟨_, _, atendidos, h1, h2⟩

/-- Witness for C7 at the concrete three-customer input. -/
theorem claim_C7_witness :
    ∃ s1 s2 atendidos,
      simular [clienteA, clienteB, clienteC] "lista" "merge" =
        .ok (s1, atendidos) ∧
      simular [clienteA, clienteB, clienteC] "prioridade" "merge" =
        .ok (s2, atendidos) :=
  claim_C7_equivalencia [clienteA, clienteB, clienteC] "merge"
    (by decide) (by decide)

/-- Claim C8 counterexample: under the Partitioned-FIFO discipline an
unrecognized category is not silently dropped from the output — the push
raises `KeyError` and the run aborts with no output at all. -/
theorem claim_C8_contraexemplo :
    simular [clienteVip] "lista" "merge" = .error (.keyError "vip") := by
  have hs : chegadasDe [clienteVip] "merge" = [clienteVip] := by
    norm_num [chegadasDe, merge_sort, merge_sortF]
  simp only [simular, hs, if_pos]
  decide

unseal Rat.add Rat.mul Rat.inv Rat.sub in
/-- Claim C8 (amended): a customer with unrecognized category makes the
Partitioned-FIFO run fail with `KeyError` (no output), while the
Priority-Structure discipline enqueues it with rank 99 and serves it. -/
theorem claim_C8_categoria_desconhecida :
    simular [clienteVip] "lista" "merge" = .error (.keyError "vip") ∧
    tipo_prioridade "vip" = 99 ∧
    simular [clienteVip] "prioridade" "merge" =
      .ok (⟨1, 0, 0, 2, "prioridade", "merge"⟩, [⟨clienteVip, 0, 2⟩]) := by
  have hs : chegadasDe [clienteVip] "merge" = [clienteVip] := by
    norm_num [chegadasDe, merge_sort, merge_sortF]
  refine ⟨?_, by decide, ?_⟩
  · simp only [simular, hs, if_pos]
    decide
  · simp only [simular, hs]
    decide

unseal Rat.add Rat.mul Rat.inv Rat.sub in
/-- Claim C9 (code side): the code performs no validation of negative
durations — the run completes normally and stamps
`termino_atendimento = -5 < 0 = inicio_atendimento`, instead of failing
with a structured error before timestamping. -/
theorem claim_C9_sem_validacao :
    simular [clienteNeg] "lista" "merge" =
      .ok (⟨1, 0, 0, -5, "lista", "merge"⟩, [⟨clienteNeg, 0, -5⟩]) ∧
    (⟨clienteNeg, 0, -5⟩ : Atendido).termino <
      (⟨clienteNeg, 0, -5⟩ : Atendido).inicio := by
  have hs : chegadasDe [clienteNeg] "merge" = [clienteNeg] := by
    norm_num [chegadasDe, merge_sort, merge_sortF]
  constructor
  · simp only [simular, hs, if_pos]
    decide
  · decide

/-- Claim C10: the simulation loop terminates on every finite input of
recognized categories (the empty input included), for both disciplines and
both sorts, returning a well-defined result; no step fails. -/
theorem claim_C10_terminacao (clientes : List Cliente)
    (estrutura alg : String)
    (hok : ∀ c ∈ clientes, tipoReconhecido c) :
    ∃ stats atendidos,
      simular clientes estrutura alg = .ok (stats, atendidos) :=
  simular_total hok estrutura alg

/-- Witness for C10 at the empty input. -/
theorem claim_C10_witness :
    ∃ stats atendidos,
      simular [] "lista" "merge" = .ok (stats, atendidos) :=
  claim_C10_terminacao [] "lista" "merge" (by decide)

end Claims

end Fila
